import Mathlib

/-!
# Verification of the dataprep deduplication engine

Shallow embedding of `src/dataprep/text/deduplicator.py`: the three
deduplication strategies (`ExactDeduplicator`, `FuzzyDeduplicator`,
`SoftDeduplicator`) and the dispatch function `deduplicate_documents`.

External collaborators (the `xxhash`/`hashlib` content hash and the
`datasketch` MinHash/LSH primitives) are not part of the repository's
sources; the spec describes them as components of the system (ContentHash,
Shingler, MinHash Signature Generator, LSH Index), so they are modelled
from the spec's words and marked as such below.  Everything else is
translated directly from the Python source.
-/

/-- A document record.  The engine reads the `text` field (a missing
`"text"` key behaves as `""` through `doc.get("text", "")`) and Soft
dedup writes a `weight` field on a copy; all other fields are opaque and
irrelevant to the engine, so they are not modelled. -/
structure Doc where
  text : String
  weight : Option ℚ := none
deriving DecidableEq

/-- A configuration value: Python numbers and booleans as they occur in
the deduplicators' config dictionaries. -/
inductive ConfigVal
  | qval (x : ℚ)
  | zval (x : Int)
  | bval (x : Bool)
deriving DecidableEq

/-- A configuration dictionary, `config.get(key, default)` style. -/
abbrev Config := List (String × ConfigVal)

/-- `config.get(key, default)` for a rational-valued parameter. -/
def cfgGetQ : Config → String → ℚ → ℚ
  | [], _, d => d
  | (k', v) :: cfg, k, d =>
    if k = k' then (match v with | .qval x => x | _ => d) else cfgGetQ cfg k d

/-- `config.get(key, default)` for an integer-valued parameter. -/
def cfgGetZ : Config → String → Int → Int
  | [], _, d => d
  | (k', v) :: cfg, k, d =>
    if k = k' then (match v with | .zval x => x | _ => d) else cfgGetZ cfg k d

/-- `config.get(key, default)` for a boolean parameter. -/
def cfgGetB : Config → String → Bool → Bool
  | [], _, d => d
  | (k', v) :: cfg, k, d =>
    if k = k' then (match v with | .bval x => x | _ => d) else cfgGetB cfg k d

/-- The error taxonomy relevant here: configuration errors (Python raises
`ValueError` both for an unknown dispatch method and for invalid LSH
parameters; the spec groups these as ConfigurationError). -/
inductive DedupError
  | configurationError (msg : String)
deriving DecidableEq

/-- Modelled from the spec: the hashing/permutation backend
(`datasketch`'s fixed family of `num_perm` hash permutations, and the
band/row split the LSH index derives from the threshold and `num_perm`).
The spec fixes only that the permutation family is fixed across all
documents of one index and that the signature is split into `b` bands of
`r` rows; the concrete derivation lives in the external library, so it is
abstracted as a parameter threaded through the whole engine. -/
structure Backend where
  perms : List (String → Nat)
  b : Nat
  r : Nat

/-- Modelled from the spec: hash values are 64-bit; the sentinel maximum
value filling the signature of an empty shingle set. -/
def maxHashSentinel : Nat := 2 ^ 64 - 1

/-- Modelled from the spec (§4.2 MinHash Generator): one signature slot
per permutation, each the minimum of that permutation's hash over all
shingles; the empty shingle set yields all-sentinel. -/
def createMinhash (bk : Backend) (tokens : List String) : List Nat :=
  bk.perms.map fun p =>
    tokens.foldl (fun m t => min m (p t % 2 ^ 64)) maxHashSentinel

/-- The all-sentinel signature of an empty shingle set. -/
def sentinelSig (bk : Backend) : List Nat :=
  bk.perms.map fun _ => maxHashSentinel

/-- Text normalization shared by both shinglers:
`text.lower()` then `"".join(text.split())` (drop all whitespace). -/
def normChars (s : String) : List Char :=
  (s.data.map Char.toLower).filter fun c => !c.isWhitespace

/-- `FuzzyDeduplicator._get_ngrams`: character n-grams of the normalized
text; `range(len(text) - n + 1)` over Python ints becomes
`List.range (len + 1 - n)` over `Nat` (both are empty when `len < n`). -/
def fuzzyGetNgrams (text : String) (n : Nat) : List String :=
  let t := normChars text
  (List.range (t.length + 1 - n)).map fun i => String.mk ((t.drop i).take n)

/-- The shingle list of `SoftDeduplicator._create_minhash`: hard-coded
character 5-grams, `for i in range(len(text) - 4)`. -/
def softNgrams (text : String) : List String :=
  let t := normChars text
  (List.range (t.length - 4)).map fun i => String.mk ((t.drop i).take 5)

/-- `SoftDeduplicator._create_minhash`. -/
def softCreateMinhash (bk : Backend) (text : String) : List Nat :=
  createMinhash bk (softNgrams text)

/-- Modelled from the spec (§4.3 LSH Index): the index state.  The bucket
structure is represented by the inserted (id, signature) pairs; two
signatures are candidates when they agree on at least one of the `b`
bands of `r` rows (the spec's bucket-key hash of a band slice is
abstracted as the slice itself, which differs only by the accepted
bucket-key collision approximation). -/
structure LSH (α : Type) where
  b : Nat
  r : Nat
  entries : List (α × List Nat)
deriving DecidableEq

/-- The `j`-th band (an `r`-row slice) of a signature. -/
def bandSlice (r : Nat) (j : Nat) (sig : List Nat) : List Nat :=
  (sig.drop (j * r)).take r

/-- Whether two signatures share at least one band. -/
def shareBand (b r : Nat) (s t : List Nat) : Bool :=
  (List.range b).any fun j => bandSlice r j s == bandSlice r j t

/-- Modelled from the spec: `query(signature)` returns the ids already
inserted that share at least one band with the query signature. -/
def LSH.query (l : LSH α) (sig : List Nat) : List α :=
  (l.entries.filter fun e => shareBand l.b l.r e.2 sig).map (·.1)

/-- Modelled from the spec: `insert(doc_id, signature)` adds the id to
every band bucket; no deletions, no other mutation. -/
def LSH.insert (l : LSH α) (id : α) (sig : List Nat) : LSH α :=
  { l with entries := l.entries ++ [(id, sig)] }

/-- Modelled from the spec (§7): `MinHashLSH(threshold=..., num_perm=...)`
construction validates its numeric parameters — `threshold` outside
`[0,1]` or `num_perm ≤ 0` is a configuration error — and starts empty,
with the band/row split the backend derived from them. -/
def mkLSH {α : Type} (bk : Backend) (threshold : ℚ) (num_perm : Int) :
    Except DedupError (LSH α) :=
  if threshold < 0 ∨ 1 < threshold then
    .error (.configurationError "threshold outside [0,1]")
  else if num_perm ≤ 0 then
    .error (.configurationError "num_perm must be positive")
  else
    .ok { b := bk.b, r := bk.r, entries := [] }

/-! ## Exact Deduplicator

`ExactDeduplicator` from the source.  `_hash_text` delegates to the
external `xxhash`/`hashlib` backends; per the spec (§3 ContentHash) it is
a deterministic function of the text, modelled as a parameter
`h : String → String` (the hexdigest). -/

/-- `ExactDeduplicator` instance state: the `sharded` flag (informational)
and the seen-hash set, here a list read only through membership. -/
structure ExactState where
  sharded : Bool
  seen_hashes : List String
deriving DecidableEq

/-- `ExactDeduplicator.__init__`: reads `sharded` (default true), starts
with no seen hashes.  No validation, construction never fails. -/
def exactInit (cfg : Config) : ExactState :=
  { sharded := cfgGetB cfg "sharded" true, seen_hashes := [] }

/-- The loop body of `ExactDeduplicator.deduplicate`: skip empty text;
hash; keep iff the hash is unseen, recording it. -/
def exactAux (h : String → String) (seen : List String) :
    List Doc → List Doc × List String
  | [] => ([], seen)
  | d :: rest =>
    if d.text = "" then exactAux h seen rest
    else if h d.text ∈ seen then exactAux h seen rest
    else
      let r := exactAux h (h d.text :: seen) rest
      (d :: r.1, r.2)

/-- `ExactDeduplicator.deduplicate`. -/
def ExactDeduplicator.deduplicate (h : String → String) (st : ExactState)
    (documents : List Doc) : List Doc × ExactState :=
  let r := exactAux h st.seen_hashes documents
  (r.1, { st with seen_hashes := r.2 })

/-- `ExactDeduplicator.reset`. -/
def ExactDeduplicator.reset (st : ExactState) : ExactState :=
  { st with seen_hashes := [] }

/-! ## Fuzzy Deduplicator -/

/-- `FuzzyDeduplicator` instance state.  `threshold` defaults to 0.8,
`ngram_size` to 5, `num_perm` to 128; the LSH index and the
`doc_minhashes` map persist across calls. -/
structure FuzzyState where
  threshold : ℚ
  ngram_size : Nat
  num_perm : Int
  lsh : LSH String
  doc_minhashes : List (String × List Nat)
deriving DecidableEq

/-- `FuzzyDeduplicator.__init__`: reads the config and constructs
`MinHashLSH(threshold=self.threshold, num_perm=self.num_perm)`, whose
parameter validation can fail here, at construction time. -/
def fuzzyInit (bk : Backend) (cfg : Config) : Except DedupError FuzzyState :=
  let threshold := cfgGetQ cfg "threshold" (4 / 5)
  let ngram_size := (cfgGetZ cfg "ngram_size" 5).toNat
  let num_perm := cfgGetZ cfg "num_perm" 128
  match mkLSH bk threshold num_perm with
  | .error e => .error e
  | .ok l =>
    .ok { threshold := threshold, ngram_size := ngram_size,
          num_perm := num_perm, lsh := l, doc_minhashes := [] }

/-- The loop of `FuzzyDeduplicator.deduplicate` over
`enumerate(documents)`: skip empty text; build the MinHash; query the
LSH; if no candidate, insert under `doc_{i}` and keep, otherwise drop
without inserting. -/
def fuzzyAux (bk : Backend) : FuzzyState → Nat → List Doc → List Doc × FuzzyState
  | st, _, [] => ([], st)
  | st, i, d :: rest =>
    if d.text = "" then fuzzyAux bk st (i + 1) rest
    else
      let minhash := createMinhash bk (fuzzyGetNgrams d.text st.ngram_size)
      if st.lsh.query minhash = [] then
        let doc_id := "doc_" ++ toString i
        let st' : FuzzyState :=
          { st with lsh := st.lsh.insert doc_id minhash,
                    doc_minhashes := st.doc_minhashes ++ [(doc_id, minhash)] }
        let r := fuzzyAux bk st' (i + 1) rest
        (d :: r.1, r.2)
      else fuzzyAux bk st (i + 1) rest

/-- `FuzzyDeduplicator.deduplicate`: every call enumerates its documents
from 0. -/
def FuzzyDeduplicator.deduplicate (bk : Backend) (st : FuzzyState)
    (documents : List Doc) : List Doc × FuzzyState :=
  fuzzyAux bk st 0 documents

/-- `FuzzyDeduplicator.reset`: a fresh LSH index (the construction
parameters were validated at `__init__` already) and empty map. -/
def FuzzyDeduplicator.reset (bk : Backend) (st : FuzzyState) : FuzzyState :=
  { st with lsh := { b := bk.b, r := bk.r, entries := [] }, doc_minhashes := [] }

/-! ## Soft Deduplicator -/

/-- `SoftDeduplicator` instance state.  `__init__` reads
`reweight_factor` (default 0.5), `similarity_threshold` (default 0.85)
and `num_perm` (default 128); the cluster maps persist across calls.
Note it reads neither a `threshold` nor an `ngram_size` key. -/
structure SoftState where
  reweight_factor : ℚ
  similarity_threshold : ℚ
  num_perm : Int
  clusters : List (String × List Nat)
  doc_to_cluster : List (Nat × String)
deriving DecidableEq

/-- `SoftDeduplicator.__init__`: no LSH is constructed here, so no
numeric parameter is validated at construction time. -/
def softInit (cfg : Config) : SoftState :=
  { reweight_factor := cfgGetQ cfg "reweight_factor" (1 / 2),
    similarity_threshold := cfgGetQ cfg "similarity_threshold" (17 / 20),
    num_perm := cfgGetZ cfg "num_perm" 128,
    clusters := [], doc_to_cluster := [] }

/-- Lookup in the `doc_to_cluster` dict (most recent assignment wins, as
with Python dict assignment). -/
def alGet : List (Nat × String) → Nat → Option String
  | [], _ => none
  | (j, c) :: m, i => if i = j then some c else alGet m i

/-- Read `self.clusters[cid]` (a `defaultdict(list)`: missing keys read
as the empty list). -/
def clGet : List (String × List Nat) → String → List Nat
  | [], _ => []
  | (k, l) :: m, c => if c = k then l else clGet m c

/-- `self.clusters[cid].append(idx)` on the `defaultdict(list)`. -/
def clAppend : List (String × List Nat) → String → Nat → List (String × List Nat)
  | [], k, v => [(k, [v])]
  | (k', l) :: m, k, v =>
    if k = k' then (k', l ++ [v]) :: m else (k', l) :: clAppend m k v

/-- The per-call clustering state of `SoftDeduplicator._cluster_documents`:
the instance's cluster maps plus the call-local cluster counter and LSH
index. -/
structure ClusterSt where
  clusters : List (String × List Nat)
  doc_to_cluster : List (Nat × String)
  counter : Nat
  lsh : LSH Nat
deriving DecidableEq

/-- One iteration of `_cluster_documents`: query; on a candidate, join
the first candidate's cluster if it has one (the `cluster_id is not None`
check); otherwise open a fresh cluster; always insert into the LSH. -/
def clusterStep (c : ClusterSt) (doc_idx : Nat) (minhash : List Nat) : ClusterSt :=
  match c.lsh.query minhash with
  | [] =>
    { clusters := clAppend c.clusters ("cluster_" ++ toString c.counter) doc_idx,
      doc_to_cluster := (doc_idx, "cluster_" ++ toString c.counter) :: c.doc_to_cluster,
      counter := c.counter + 1,
      lsh := c.lsh.insert doc_idx minhash }
  | s0 :: _ =>
    match alGet c.doc_to_cluster s0 with
    | some cluster_id =>
      { clusters := clAppend c.clusters cluster_id doc_idx,
        doc_to_cluster := (doc_idx, cluster_id) :: c.doc_to_cluster,
        counter := c.counter,
        lsh := c.lsh.insert doc_idx minhash }
    | none => { c with lsh := c.lsh.insert doc_idx minhash }

/-- The loop of `_cluster_documents` over `doc_minhashes`. -/
def clusterDocs (c : ClusterSt) : List (Nat × List Nat) → ClusterSt
  | [] => c
  | (i, mh) :: rest => clusterDocs (clusterStep c i mh) rest

/-- Step 1 of `SoftDeduplicator.deduplicate`: `(i, minhash)` for every
document of the call with non-empty text, in order (`enumerate` from
`i`). -/
def collectMinhashes (bk : Backend) (i : Nat) : List Doc → List (Nat × List Nat)
  | [] => []
  | d :: rest =>
    if d.text = "" then collectMinhashes bk (i + 1) rest
    else (i, softCreateMinhash bk d.text) :: collectMinhashes bk (i + 1) rest

/-- Step 3 of `SoftDeduplicator.deduplicate`: copy each document, writing
weight 1.0 when it has no cluster and `max(reweight_factor, 1/s)` for a
cluster of size `s`. -/
def assignWeights (rf : ℚ) (cl : List (String × List Nat))
    (d2c : List (Nat × String)) : Nat → List Doc → List Doc
  | _, [] => []
  | i, d :: rest =>
    (match alGet d2c i with
     | none => { d with weight := some 1 }
     | some cluster_id =>
       { d with weight := some (max rf (1 / ((clGet cl cluster_id).length : ℚ))) }) ::
    assignWeights rf cl d2c (i + 1) rest

/-- `SoftDeduplicator.deduplicate`: `_cluster_documents` constructs the
per-call `MinHashLSH(threshold=self.similarity_threshold,
num_perm=self.num_perm)` — so invalid parameters surface here, inside the
call, never at `__init__`. -/
def SoftDeduplicator.deduplicate (bk : Backend) (st : SoftState)
    (documents : List Doc) : Except DedupError (List Doc × SoftState) :=
  match mkLSH bk st.similarity_threshold st.num_perm with
  | .error e => .error e
  | .ok lsh0 =>
    let dm := collectMinhashes bk 0 documents
    let c := clusterDocs
      { clusters := st.clusters, doc_to_cluster := st.doc_to_cluster,
        counter := 0, lsh := lsh0 } dm
    .ok (assignWeights st.reweight_factor c.clusters c.doc_to_cluster 0 documents,
         { st with clusters := c.clusters, doc_to_cluster := c.doc_to_cluster })

/-- `SoftDeduplicator.reset`. -/
def SoftDeduplicator.reset (st : SoftState) : SoftState :=
  { st with clusters := [], doc_to_cluster := [] }

/-! ## Dispatcher -/

/-- `deduplicate_documents(documents, method, config)`: select the
strategy by name on a fresh instance; an unknown name raises
`ValueError(f"Unbekannte Methode: {method}")`. -/
def deduplicate_documents (bk : Backend) (h : String → String)
    (documents : List Doc) (method : String) (cfg : Config) :
    Except DedupError (List Doc) :=
  if method = "exact" then
    .ok (ExactDeduplicator.deduplicate h (exactInit cfg) documents).1
  else if method = "fuzzy" then
    match fuzzyInit bk cfg with
    | .error e => .error e
    | .ok st => .ok (FuzzyDeduplicator.deduplicate bk st documents).1
  else if method = "soft" then
    match SoftDeduplicator.deduplicate bk (softInit cfg) documents with
    | .error e => .error e
    | .ok r => .ok r.1
  else .error (.configurationError ("Unbekannte Methode: " ++ method))

/-! ## Specification-side characterization of Exact dedup (for C1)

The spec's contract, stated independently of the evolving seen-set of the
implementation: a document is kept iff its text is non-empty, its hash is
not in the seen set the instance started the call with, and no earlier
document of the call with non-empty text has the same hash. -/

/-- The spec's keep-condition, quantifying over the already-scanned
`scanned` of the call and the instance's initial seen set `seen0`. -/
def specExactGo (h : String → String) (seen0 : List String)
    (scanned : List Doc) : List Doc → List Doc
  | [] => []
  | d :: rest =>
    if d.text ≠ "" ∧ h d.text ∉ seen0 ∧
        ∀ d' ∈ scanned, d'.text = "" ∨ h d'.text ≠ h d.text then
      d :: specExactGo h seen0 (scanned ++ [d]) rest
    else specExactGo h seen0 (scanned ++ [d]) rest

/-- The subsequence the spec says Exact dedup returns. -/
def specExactKeep (h : String → String) (seen0 : List String)
    (docs : List Doc) : List Doc :=
  specExactGo h seen0 [] docs

lemma exactAux_eq_specGo (h : String → String) (seen0 : List String) :
    ∀ (rest : List Doc) (scanned : List Doc) (seen : List String),
      (∀ x, x ∈ seen ↔ x ∈ seen0 ∨ ∃ d' ∈ scanned, d'.text ≠ "" ∧ h d'.text = x) →
      (exactAux h seen rest).1 = specExactGo h seen0 scanned rest := by
  intro rest
  induction rest with
  | nil => intro scanned seen hinv; rfl
  | cons d rest ih =>
    intro scanned seen hinv
    by_cases hd : d.text = ""
    · have hc : ¬(d.text ≠ "" ∧ h d.text ∉ seen0 ∧
          ∀ d' ∈ scanned, d'.text = "" ∨ h d'.text ≠ h d.text) := by
        intro hand; exact hand.1 hd
      simp only [exactAux, specExactGo, if_pos hd, if_neg hc]
      refine ih (scanned ++ [d]) seen fun x => ?_
      rw [hinv x]
      constructor
      · rintro (hx | ⟨d', hd', hne, hhx⟩)
        · exact Or.inl hx
        · exact Or.inr ⟨d', List.mem_append_left _ hd', hne, hhx⟩
      · rintro (hx | ⟨d', hd', hne, hhx⟩)
        · exact Or.inl hx
        · rcases List.mem_append.mp hd' with hmem | hmem
          · exact Or.inr ⟨d', hmem, hne, hhx⟩
          · rw [List.mem_singleton.mp hmem] at hne; exact absurd hd hne
    · by_cases hs : h d.text ∈ seen
      · have hc : ¬(d.text ≠ "" ∧ h d.text ∉ seen0 ∧
            ∀ d' ∈ scanned, d'.text = "" ∨ h d'.text ≠ h d.text) := by
          rintro ⟨-, hns0, hall⟩
          rcases (hinv (h d.text)).mp hs with hx | ⟨d', hd', hne, hhx⟩
          · exact hns0 hx
          · rcases hall d' hd' with he | hne'
            · exact hne he
            · exact hne' hhx
        simp only [exactAux, specExactGo, if_neg hd, if_pos hs, if_neg hc]
        refine ih (scanned ++ [d]) seen fun x => ?_
        rw [hinv x]
        constructor
        · rintro (hx | ⟨d', hd', hne, hhx⟩)
          · exact Or.inl hx
          · exact Or.inr ⟨d', List.mem_append_left _ hd', hne, hhx⟩
        · rintro (hx | ⟨d', hd', hne, hhx⟩)
          · exact Or.inl hx
          · rcases List.mem_append.mp hd' with hmem | hmem
            · exact Or.inr ⟨d', hmem, hne, hhx⟩
            · rw [List.mem_singleton.mp hmem] at hhx
              rw [hhx] at hs
              exact (hinv x).mp hs
      · have hc : d.text ≠ "" ∧ h d.text ∉ seen0 ∧
            ∀ d' ∈ scanned, d'.text = "" ∨ h d'.text ≠ h d.text := by
          refine ⟨hd, fun hx => hs ((hinv (h d.text)).mpr (Or.inl hx)), ?_⟩
          intro d' hd'
          by_cases he : d'.text = ""
          · exact Or.inl he
          · refine Or.inr fun heq => hs ?_
            exact (hinv (h d.text)).mpr (Or.inr ⟨d', hd', he, heq⟩)
        simp only [exactAux, specExactGo, if_neg hd, if_neg hs, if_pos hc]
        refine congrArg (d :: ·) (ih (scanned ++ [d]) (h d.text :: seen) fun x => ?_)
        simp only [List.mem_cons]
        constructor
        · rintro (hx | hx)
          · exact Or.inr ⟨d, List.mem_append_right _ (List.mem_singleton_self d), hd, hx.symm⟩
          · rcases (hinv x).mp hx with hx0 | ⟨d', hd', hne, hhx⟩
            · exact Or.inl hx0
            · exact Or.inr ⟨d', List.mem_append_left _ hd', hne, hhx⟩
        · rintro (hx | ⟨d', hd', hne, hhx⟩)
          · exact Or.inr ((hinv x).mpr (Or.inl hx))
          · rcases List.mem_append.mp hd' with hmem | hmem
            · exact Or.inr ((hinv x).mpr (Or.inr ⟨d', hmem, hne, hhx⟩))
            · rw [List.mem_singleton.mp hmem] at hhx
              exact Or.inl hhx.symm

lemma exactAux_seen_iff (h : String → String) :
    ∀ (docs : List Doc) (seen : List String) (x : String),
      x ∈ (exactAux h seen docs).2 ↔
        x ∈ seen ∨ ∃ d ∈ docs, d.text ≠ "" ∧ h d.text = x := by
  intro docs
  induction docs with
  | nil => intro seen x; simp [exactAux]
  | cons d rest ih =>
    intro seen x
    by_cases hd : d.text = ""
    · simp only [exactAux, if_pos hd, ih, List.mem_cons]
      constructor
      · rintro (hx | ⟨d', hd', hne, hhx⟩)
        · exact Or.inl hx
        · exact Or.inr ⟨d', Or.inr hd', hne, hhx⟩
      · rintro (hx | ⟨d', hd' | hd', hne, hhx⟩)
        · exact Or.inl hx
        · rw [hd'] at hne; exact absurd hd hne
        · exact Or.inr ⟨d', hd', hne, hhx⟩
    · by_cases hs : h d.text ∈ seen
      · simp only [exactAux, if_neg hd, if_pos hs, ih, List.mem_cons]
        constructor
        · rintro (hx | ⟨d', hd', hne, hhx⟩)
          · exact Or.inl hx
          · exact Or.inr ⟨d', Or.inr hd', hne, hhx⟩
        · rintro (hx | ⟨d', hd' | hd', hne, hhx⟩)
          · exact Or.inl hx
          · rw [hd'] at hhx; rw [← hhx]; exact Or.inl hs
          · exact Or.inr ⟨d', hd', hne, hhx⟩
      · simp only [exactAux, if_neg hd, if_neg hs, ih, List.mem_cons]
        constructor
        · rintro ((hx | hx) | ⟨d', hd', hne, hhx⟩)
          · exact Or.inr ⟨d, Or.inl rfl, hd, hx.symm⟩
          · exact Or.inl hx
          · exact Or.inr ⟨d', Or.inr hd', hne, hhx⟩
        · rintro (hx | ⟨d', hd' | hd', hne, hhx⟩)
          · exact Or.inl (Or.inr hx)
          · rw [hd'] at hhx; exact Or.inl (Or.inl hhx.symm)
          · exact Or.inr ⟨d', hd', hne, hhx⟩

lemma exactAux_nil_of_all_seen (h : String → String) :
    ∀ (docs : List Doc) (seen : List String),
      (∀ d ∈ docs, d.text ≠ "" → h d.text ∈ seen) →
      (exactAux h seen docs).1 = [] := by
  intro docs
  induction docs with
  | nil => intro seen _; rfl
  | cons d rest ih =>
    intro seen hall
    by_cases hd : d.text = ""
    · simp only [exactAux, if_pos hd]
      exact ih seen fun d' hd' => hall d' (List.mem_cons_of_mem d hd')
    · have hs : h d.text ∈ seen := hall d (List.mem_cons_self d rest) hd
      simp only [exactAux, if_neg hd, if_pos hs]
      exact ih seen fun d' hd' => hall d' (List.mem_cons_of_mem d hd')

/-- C1: for every input sequence, `ExactDeduplicator.deduplicate` returns
exactly the subsequence of documents with non-empty text whose content
hash has not been seen before in this instance's lifetime (including
prior calls, via the starting seen set), in original input order;
empty-text documents are neither kept nor recorded as seen (the final
seen set is exactly the initial one plus the hashes of the non-empty
texts); and on a fresh instance `[A, A, B]` yields `[A, B]` (given that
the content hashes of `"A"` and `"B"` differ, the spec's bounded
collision caveat). -/
theorem ExactDeduplicator.deduplicate_keeps_unseen (h : String → String)
    (st : ExactState) (docs : List Doc) (hAB : h "A" ≠ h "B") :
    (ExactDeduplicator.deduplicate h st docs).1 = specExactKeep h st.seen_hashes docs ∧
    (∀ x, x ∈ (ExactDeduplicator.deduplicate h st docs).2.seen_hashes ↔
        x ∈ st.seen_hashes ∨ ∃ d ∈ docs, d.text ≠ "" ∧ h d.text = x) ∧
    (ExactDeduplicator.deduplicate h (exactInit [])
        [⟨"A", none⟩, ⟨"A", none⟩, ⟨"B", none⟩]).1 = [⟨"A", none⟩, ⟨"B", none⟩] := by
  refine ⟨?_, ?_, ?_⟩
  · exact exactAux_eq_specGo h st.seen_hashes docs [] st.seen_hashes (fun x => by simp)
  · intro x
    exact exactAux_seen_iff h docs st.seen_hashes x
  · have hBA : h "B" ∉ [h "A"] := by
      simp only [List.mem_singleton]
      exact fun hc => hAB hc.symm
    show (exactAux h [] [⟨"A", none⟩, ⟨"A", none⟩, ⟨"B", none⟩]).1 = _
    simp only [exactAux]
    rw [if_neg (by decide : ¬(Doc.mk "A" none).text = "")]
    rw [if_neg (List.not_mem_nil (h "A"))]
    simp only [exactAux]
    rw [if_neg (by decide : ¬(Doc.mk "A" none).text = "")]
    rw [if_pos (List.mem_singleton_self (h "A"))]
    rw [if_neg (by decide : ¬(Doc.mk "B" none).text = "")]
    rw [if_neg hBA]

/-- Witness for C1 at the identity hash and the spec's example input. -/
theorem exact_c1_witness :
    ((fun s : String => s) "A" ≠ (fun s : String => s) "B") ∧
    ((ExactDeduplicator.deduplicate (fun s : String => s) (exactInit [])
        [⟨"A", none⟩, ⟨"A", none⟩, ⟨"B", none⟩]).1 =
      specExactKeep (fun s : String => s) (exactInit []).seen_hashes
        [⟨"A", none⟩, ⟨"A", none⟩, ⟨"B", none⟩] ∧
     (∀ x, x ∈ (ExactDeduplicator.deduplicate (fun s : String => s) (exactInit [])
          [⟨"A", none⟩, ⟨"A", none⟩, ⟨"B", none⟩]).2.seen_hashes ↔
        x ∈ (exactInit []).seen_hashes ∨
          ∃ d ∈ [Doc.mk "A" none, Doc.mk "A" none, Doc.mk "B" none],
            d.text ≠ "" ∧ (fun s : String => s) d.text = x) ∧
     (ExactDeduplicator.deduplicate (fun s : String => s) (exactInit [])
        [⟨"A", none⟩, ⟨"A", none⟩, ⟨"B", none⟩]).1 = [⟨"A", none⟩, ⟨"B", none⟩]) :=
  ⟨by decide, ExactDeduplicator.deduplicate_keeps_unseen (fun s : String => s)
    (exactInit []) [⟨"A", none⟩, ⟨"A", none⟩, ⟨"B", none⟩] (by decide)⟩

/-- C7: running the same sequence a second time through the same
`ExactDeduplicator` instance without reset removes every document — the
second pass returns the empty list, whatever the instance's prior
state. -/
theorem ExactDeduplicator.idempotent_second_pass (h : String → String)
    (st : ExactState) (docs : List Doc) :
    (ExactDeduplicator.deduplicate h
        (ExactDeduplicator.deduplicate h st docs).2 docs).1 = [] := by
  show (exactAux h (exactAux h st.seen_hashes docs).2 docs).1 = []
  apply exactAux_nil_of_all_seen
  intro d hd hne
  rw [exactAux_seen_iff]
  exact Or.inr ⟨d, hd, hne, rfl⟩

/-! ## LSH index lemmas -/

lemma LSH.query_eq_nil_iff (l : LSH α) (s : List Nat) :
    l.query s = [] ↔ ∀ e ∈ l.entries, ¬shareBand l.b l.r e.2 s = true := by
  unfold LSH.query
  rw [List.map_eq_nil_iff, List.filter_eq_nil_iff]

lemma shareBand_self {b : Nat} (hb : 0 < b) (r : Nat) (s : List Nat) :
    shareBand b r s s = true := by
  unfold shareBand
  rw [List.any_eq_true]
  exact ⟨0, List.mem_range.mpr hb, beq_self_eq_true _⟩

lemma LSH.query_insert_self (l : LSH α) (hb : 0 < l.b) (id : α) (s : List Nat) :
    (l.insert id s).query s ≠ [] := by
  apply List.ne_nil_of_mem (a := id)
  unfold LSH.query LSH.insert
  have hmem : (id, s) ∈ l.entries ++ [(id, s)] :=
    List.mem_append_right _ (List.mem_singleton_self _)
  have hf : (id, s) ∈ (l.entries ++ [(id, s)]).filter
      (fun e => shareBand l.b l.r e.2 s) :=
    List.mem_filter.mpr ⟨hmem, shareBand_self hb l.r s⟩
  exact List.mem_map_of_mem (·.1) hf

lemma LSH.query_insert_of_query (l : LSH α) {s : List Nat}
    (h : l.query s ≠ []) (id : α) (t : List Nat) :
    (l.insert id t).query s ≠ [] := by
  unfold LSH.query LSH.insert at *
  simp only [List.filter_append, List.map_append]
  intro hc
  exact h (List.append_eq_nil.mp hc).1

lemma LSH.mem_query_mem_ids (l : LSH α) {s : List Nat} {x : α}
    (hx : x ∈ l.query s) : x ∈ l.entries.map (·.1) := by
  unfold LSH.query at hx
  rcases List.mem_map.mp hx with ⟨e, he, hex⟩
  exact hex ▸ List.mem_map_of_mem _ (List.mem_filter.mp he).1

/-- Candidate emptiness depends only on the stored signatures and the
band split, never on the inserted ids. -/
lemma LSH.query_nil_iff_of_sigs {l : LSH α} {l' : LSH β}
    (hb : l.b = l'.b) (hr : l.r = l'.r)
    (he : l.entries.map (·.2) = l'.entries.map (·.2)) (s : List Nat) :
    (l.query s = [] ↔ l'.query s = []) := by
  rw [LSH.query_eq_nil_iff, LSH.query_eq_nil_iff, hb, hr]
  constructor
  · intro hall e' he'
    have : e'.2 ∈ l'.entries.map (·.2) := List.mem_map_of_mem _ he'
    rw [← he] at this
    rcases List.mem_map.mp this with ⟨e, hee, heq⟩
    rw [← heq]
    exact hall e hee
  · intro hall e hee
    have : e.2 ∈ l.entries.map (·.2) := List.mem_map_of_mem _ hee
    rw [he] at this
    rcases List.mem_map.mp this with ⟨e', hee', heq⟩
    rw [← heq]
    exact hall e' hee'

/-! ## Fuzzy deduplicator lemmas -/

lemma fuzzyAux_nil (bk : Backend) (st : FuzzyState) (i : Nat) :
    fuzzyAux bk st i [] = ([], st) := rfl

lemma fuzzyAux_cons_empty (bk : Backend) (st : FuzzyState) (i : Nat)
    {d : Doc} (rest : List Doc) (hd : d.text = "") :
    fuzzyAux bk st i (d :: rest) = fuzzyAux bk st (i + 1) rest := by
  simp only [fuzzyAux, if_pos hd]

lemma fuzzyAux_cons_dup (bk : Backend) (st : FuzzyState) (i : Nat)
    {d : Doc} (rest : List Doc) (hd : ¬d.text = "")
    (hq : ¬st.lsh.query (createMinhash bk (fuzzyGetNgrams d.text st.ngram_size)) = []) :
    fuzzyAux bk st i (d :: rest) = fuzzyAux bk st (i + 1) rest := by
  simp only [fuzzyAux, if_neg hd, if_neg hq]

lemma fuzzyAux_cons_keep (bk : Backend) (st : FuzzyState) (i : Nat)
    {d : Doc} (rest : List Doc) (hd : ¬d.text = "")
    (hq : st.lsh.query (createMinhash bk (fuzzyGetNgrams d.text st.ngram_size)) = []) :
    fuzzyAux bk st i (d :: rest) =
      ((d :: (fuzzyAux bk
          { st with
            lsh := st.lsh.insert ("doc_" ++ toString i)
              (createMinhash bk (fuzzyGetNgrams d.text st.ngram_size)),
            doc_minhashes := st.doc_minhashes ++
              [("doc_" ++ toString i,
                createMinhash bk (fuzzyGetNgrams d.text st.ngram_size))] }
          (i + 1) rest).1),
       (fuzzyAux bk
          { st with
            lsh := st.lsh.insert ("doc_" ++ toString i)
              (createMinhash bk (fuzzyGetNgrams d.text st.ngram_size)),
            doc_minhashes := st.doc_minhashes ++
              [("doc_" ++ toString i,
                createMinhash bk (fuzzyGetNgrams d.text st.ngram_size))] }
          (i + 1) rest).2) := by
  simp only [fuzzyAux, if_neg hd, if_pos hq]

/-- `deduplicate` leaves the configuration fields and the band split of a
`FuzzyDeduplicator` untouched; only the index and the id map grow. -/
lemma fuzzyAux_preserves (bk : Backend) :
    ∀ (docs : List Doc) (st : FuzzyState) (i : Nat),
      (fuzzyAux bk st i docs).2.threshold = st.threshold ∧
      (fuzzyAux bk st i docs).2.ngram_size = st.ngram_size ∧
      (fuzzyAux bk st i docs).2.num_perm = st.num_perm ∧
      (fuzzyAux bk st i docs).2.lsh.b = st.lsh.b ∧
      (fuzzyAux bk st i docs).2.lsh.r = st.lsh.r := by
  intro docs
  induction docs with
  | nil => intro st i; exact ⟨rfl, rfl, rfl, rfl, rfl⟩
  | cons d rest ih =>
    intro st i
    by_cases hd : d.text = ""
    · rw [fuzzyAux_cons_empty bk st i rest hd]
      exact ih st (i + 1)
    · by_cases hq : st.lsh.query (createMinhash bk (fuzzyGetNgrams d.text st.ngram_size)) = []
      · rw [fuzzyAux_cons_keep bk st i rest hd hq]
        exact ih _ (i + 1)
      · rw [fuzzyAux_cons_dup bk st i rest hd hq]
        exact ih st (i + 1)

/-- A candidate set that is already non-empty stays non-empty through
any further processing: the index only grows. -/
lemma fuzzyAux_query_mono (bk : Backend) :
    ∀ (docs : List Doc) (st : FuzzyState) (i : Nat) (s : List Nat),
      st.lsh.query s ≠ [] → (fuzzyAux bk st i docs).2.lsh.query s ≠ [] := by
  intro docs
  induction docs with
  | nil => intro st i s hs; exact hs
  | cons d rest ih =>
    intro st i s hs
    by_cases hd : d.text = ""
    · rw [fuzzyAux_cons_empty bk st i rest hd]; exact ih st (i + 1) s hs
    · by_cases hq : st.lsh.query (createMinhash bk (fuzzyGetNgrams d.text st.ngram_size)) = []
      · rw [fuzzyAux_cons_keep bk st i rest hd hq]
        exact ih _ (i + 1) s (st.lsh.query_insert_of_query hs _ _)
      · rw [fuzzyAux_cons_dup bk st i rest hd hq]; exact ih st (i + 1) s hs

/-- Splitting a Fuzzy pass: processing `xs ++ ys` in one call equals
processing `xs` and continuing with `ys` from the reached state, the
enumeration index carrying on. -/
lemma fuzzyAux_append (bk : Backend) :
    ∀ (xs ys : List Doc) (st : FuzzyState) (i : Nat),
      fuzzyAux bk st i (xs ++ ys) =
        ((fuzzyAux bk st i xs).1 ++
           (fuzzyAux bk (fuzzyAux bk st i xs).2 (i + xs.length) ys).1,
         (fuzzyAux bk (fuzzyAux bk st i xs).2 (i + xs.length) ys).2) := by
  intro xs
  induction xs with
  | nil =>
    intro ys st i
    simp [fuzzyAux_nil]
  | cons d xs ih =>
    intro ys st i
    have hlen : i + (d :: xs).length = (i + 1) + xs.length := by
      simp [List.length_cons]; omega
    by_cases hd : d.text = ""
    · rw [List.cons_append, fuzzyAux_cons_empty bk st i (xs ++ ys) hd,
        fuzzyAux_cons_empty bk st i xs hd, hlen]
      exact ih ys st (i + 1)
    · by_cases hq : st.lsh.query (createMinhash bk (fuzzyGetNgrams d.text st.ngram_size)) = []
      · rw [List.cons_append, fuzzyAux_cons_keep bk st i (xs ++ ys) hd hq,
          fuzzyAux_cons_keep bk st i xs hd hq, hlen]
        rw [ih ys _ (i + 1)]
        simp
      · rw [List.cons_append, fuzzyAux_cons_dup bk st i (xs ++ ys) hd hq,
          fuzzyAux_cons_dup bk st i xs hd hq, hlen]
        exact ih ys st (i + 1)

/-! ## Specification-side Fuzzy pass (for C2)

The spec's per-document state machine (§4.4), written from the spec's
words: skip empty text; compute shingles and signature; query; non-empty
candidate set means drop without inserting; empty means keep and insert
the signature keyed by the document's own original position. -/

def specFuzzyGo (bk : Backend) (n : Nat) : LSH Nat → Nat → List Doc → List Doc × LSH Nat
  | idx, _, [] => ([], idx)
  | idx, i, d :: rest =>
    if d.text = "" then specFuzzyGo bk n idx (i + 1) rest
    else
      if _hq : idx.query (createMinhash bk (fuzzyGetNgrams d.text n)) ≠ [] then
        specFuzzyGo bk n idx (i + 1) rest
      else
        ((d :: (specFuzzyGo bk n
            (idx.insert i (createMinhash bk (fuzzyGetNgrams d.text n))) (i + 1) rest).1),
         (specFuzzyGo bk n
            (idx.insert i (createMinhash bk (fuzzyGetNgrams d.text n))) (i + 1) rest).2)

/-- The implementation refines the spec's Fuzzy state machine: from any
pair of related index states (same band split and same stored signatures
— ids and enumeration offsets are irrelevant to candidate emptiness),
both keep exactly the same documents and store the same signatures. -/
lemma fuzzyAux_matches_specGo (bk : Backend) :
    ∀ (docs : List Doc) (st : FuzzyState) (idx : LSH Nat) (i j : Nat),
      st.lsh.b = idx.b → st.lsh.r = idx.r →
      st.lsh.entries.map (·.2) = idx.entries.map (·.2) →
      (fuzzyAux bk st i docs).1 = (specFuzzyGo bk st.ngram_size idx j docs).1 ∧
      (fuzzyAux bk st i docs).2.lsh.entries.map (·.2) =
        (specFuzzyGo bk st.ngram_size idx j docs).2.entries.map (·.2) := by
  intro docs
  induction docs with
  | nil =>
    intro st idx i j hb hr he
    exact ⟨rfl, he⟩
  | cons d rest ih =>
    intro st idx i j hb hr he
    by_cases hd : d.text = ""
    · rw [fuzzyAux_cons_empty bk st i rest hd]
      simp only [specFuzzyGo, if_pos hd]
      exact ih st idx (i + 1) (j + 1) hb hr he
    · have hqiff := LSH.query_nil_iff_of_sigs hb hr he
        (createMinhash bk (fuzzyGetNgrams d.text st.ngram_size))
      by_cases hq : st.lsh.query (createMinhash bk (fuzzyGetNgrams d.text st.ngram_size)) = []
      · have hq' : ¬idx.query (createMinhash bk (fuzzyGetNgrams d.text st.ngram_size)) ≠ [] :=
          fun hc => hc (hqiff.mp hq)
        rw [fuzzyAux_cons_keep bk st i rest hd hq]
        simp only [specFuzzyGo, if_neg hd, dif_neg hq']
        have hrec := ih
          { st with
            lsh := st.lsh.insert ("doc_" ++ toString i)
              (createMinhash bk (fuzzyGetNgrams d.text st.ngram_size)),
            doc_minhashes := st.doc_minhashes ++
              [("doc_" ++ toString i,
                createMinhash bk (fuzzyGetNgrams d.text st.ngram_size))] }
          (idx.insert j (createMinhash bk (fuzzyGetNgrams d.text st.ngram_size)))
          (i + 1) (j + 1) hb hr (by
            show (st.lsh.entries ++ _).map (·.2) = (idx.entries ++ _).map (·.2)
            rw [List.map_append, List.map_append, he]
            rfl)
        exact ⟨congrArg (d :: ·) hrec.1, hrec.2⟩
      · have hq' : idx.query (createMinhash bk (fuzzyGetNgrams d.text st.ngram_size)) ≠ [] :=
          fun hc => hq (hqiff.mpr hc)
        rw [fuzzyAux_cons_dup bk st i rest hd hq]
        simp only [specFuzzyGo, if_neg hd, dif_pos hq']
        exact ih st idx (i + 1) (j + 1) hb hr he

/-- Shared concrete backend for witnesses: one permutation, one band of
one row. -/
def demoBackend : Backend := ⟨[fun _ => 0], 1, 1⟩

/-- A freshly constructed Fuzzy state with the default parameters over
`demoBackend`. -/
def demoFuzzyFresh : FuzzyState := ⟨4 / 5, 5, 128, ⟨1, 1, []⟩, []⟩

/-- C2: `FuzzyDeduplicator.deduplicate` implements the spec's per-document
state machine: in arrival order, empty text is skipped; a non-empty LSH
candidate set drops the document without inserting it; an empty candidate
set keeps the document and inserts its signature keyed by its own
original position; the output is the kept subsequence in original order
and the stored signatures coincide. -/
theorem FuzzyDeduplicator.deduplicate_matches_spec (bk : Backend)
    (st : FuzzyState) (idx : LSH Nat) (docs : List Doc)
    (hb : st.lsh.b = idx.b) (hr : st.lsh.r = idx.r)
    (he : st.lsh.entries.map (·.2) = idx.entries.map (·.2)) :
    (FuzzyDeduplicator.deduplicate bk st docs).1 =
      (specFuzzyGo bk st.ngram_size idx 0 docs).1 ∧
    (FuzzyDeduplicator.deduplicate bk st docs).2.lsh.entries.map (·.2) =
      (specFuzzyGo bk st.ngram_size idx 0 docs).2.entries.map (·.2) :=
  fuzzyAux_matches_specGo bk docs st idx 0 0 hb hr he

/-- Witness for C2 on a fresh default instance and two equal texts. -/
theorem fuzzy_c2_witness :
    (FuzzyDeduplicator.deduplicate demoBackend demoFuzzyFresh
        [⟨"hello world", none⟩, ⟨"hello world", none⟩]).1 =
      (specFuzzyGo demoBackend demoFuzzyFresh.ngram_size (LSH.mk 1 1 []) 0
        [⟨"hello world", none⟩, ⟨"hello world", none⟩]).1 ∧
    (FuzzyDeduplicator.deduplicate demoBackend demoFuzzyFresh
        [⟨"hello world", none⟩, ⟨"hello world", none⟩]).2.lsh.entries.map (·.2) =
      (specFuzzyGo demoBackend demoFuzzyFresh.ngram_size (LSH.mk 1 1 []) 0
        [⟨"hello world", none⟩, ⟨"hello world", none⟩]).2.entries.map (·.2) :=
  FuzzyDeduplicator.deduplicate_matches_spec demoBackend demoFuzzyFresh
    (LSH.mk 1 1 []) [⟨"hello world", none⟩, ⟨"hello world", none⟩] rfl rfl rfl

/-! ## Short-text collapse in Fuzzy dedup (C10) -/

lemma fuzzyGetNgrams_nil {t : String} {n : Nat}
    (h : (normChars t).length < n) : fuzzyGetNgrams t n = [] := by
  have h0 : (normChars t).length + 1 - n = 0 := by omega
  simp only [fuzzyGetNgrams, h0, List.range_zero, List.map_nil]

lemma createMinhash_nil (bk : Backend) : createMinhash bk [] = sentinelSig bk := rfl

/-- After a non-empty document whose normalized text is shorter than the
shingle length is processed — kept or dropped — the all-sentinel
signature always has candidates in the index. -/
lemma fuzzyAux_query_sentinel_after (bk : Backend) (st : FuzzyState) (i : Nat)
    (d1 : Doc) (hb : 0 < st.lsh.b) (h1 : ¬d1.text = "")
    (hs1 : (normChars d1.text).length < st.ngram_size) :
    (fuzzyAux bk st i [d1]).2.lsh.query (sentinelSig bk) ≠ [] := by
  have hsig : createMinhash bk (fuzzyGetNgrams d1.text st.ngram_size) = sentinelSig bk := by
    rw [fuzzyGetNgrams_nil hs1]
    exact createMinhash_nil bk
  by_cases hq : st.lsh.query (createMinhash bk (fuzzyGetNgrams d1.text st.ngram_size)) = []
  · rw [fuzzyAux_cons_keep bk st i [] h1 hq]
    show (st.lsh.insert ("doc_" ++ toString i)
        (createMinhash bk (fuzzyGetNgrams d1.text st.ngram_size))).query
        (sentinelSig bk) ≠ []
    rw [hsig]
    exact st.lsh.query_insert_self hb _ _
  · rw [fuzzyAux_cons_dup bk st i [] h1 hq]
    rw [hsig] at hq
    exact hq

/-- C10: in `FuzzyDeduplicator`, any two documents whose text is
non-empty but whose normalized form is shorter than `ngram_size`
(whitespace-only text included) produce the same all-sentinel MinHash
signature, so whenever both occur in one instance's lifetime the later
one is dropped as a duplicate — it contributes nothing to the output and
leaves the state unchanged — regardless of the actual texts. -/
theorem FuzzyDeduplicator.short_text_collapse (bk : Backend) (st : FuzzyState)
    (i : Nat) (pre mid post : List Doc) (d1 d2 : Doc)
    (hb : 0 < st.lsh.b) (h1 : d1.text ≠ "") (h2 : d2.text ≠ "")
    (hs1 : (normChars d1.text).length < st.ngram_size)
    (hs2 : (normChars d2.text).length < st.ngram_size) :
    createMinhash bk (fuzzyGetNgrams d1.text st.ngram_size) =
      createMinhash bk (fuzzyGetNgrams d2.text st.ngram_size) ∧
    createMinhash bk (fuzzyGetNgrams d2.text st.ngram_size) = sentinelSig bk ∧
    fuzzyAux bk st i ((pre ++ d1 :: mid) ++ d2 :: post) =
      ((fuzzyAux bk st i (pre ++ d1 :: mid)).1 ++
         (fuzzyAux bk (fuzzyAux bk st i (pre ++ d1 :: mid)).2
            (i + (pre ++ d1 :: mid).length + 1) post).1,
       (fuzzyAux bk (fuzzyAux bk st i (pre ++ d1 :: mid)).2
          (i + (pre ++ d1 :: mid).length + 1) post).2) := by
  have hsig2 : createMinhash bk (fuzzyGetNgrams d2.text st.ngram_size) = sentinelSig bk := by
    rw [fuzzyGetNgrams_nil hs2]
    exact createMinhash_nil bk
  refine ⟨by rw [fuzzyGetNgrams_nil hs1, fuzzyGetNgrams_nil hs2], hsig2, ?_⟩
  have hqs : (fuzzyAux bk st i (pre ++ d1 :: mid)).2.lsh.query (sentinelSig bk) ≠ [] := by
    have hre : pre ++ d1 :: mid = (pre ++ [d1]) ++ mid := by simp
    rw [hre, fuzzyAux_append bk (pre ++ [d1]) mid st i]
    apply fuzzyAux_query_mono
    rw [fuzzyAux_append bk pre [d1] st i]
    apply fuzzyAux_query_sentinel_after
    · rw [(fuzzyAux_preserves bk pre st i).2.2.2.1]
      exact hb
    · exact h1
    · rw [(fuzzyAux_preserves bk pre st i).2.1]
      exact hs1
  have hng : (fuzzyAux bk st i (pre ++ d1 :: mid)).2.ngram_size = st.ngram_size :=
    (fuzzyAux_preserves bk (pre ++ d1 :: mid) st i).2.1
  have hq2 : ¬(fuzzyAux bk st i (pre ++ d1 :: mid)).2.lsh.query
      (createMinhash bk (fuzzyGetNgrams d2.text
        (fuzzyAux bk st i (pre ++ d1 :: mid)).2.ngram_size)) = [] := by
    rw [hng, hsig2]
    exact hqs
  rw [fuzzyAux_append bk (pre ++ d1 :: mid) (d2 :: post) st i,
    fuzzyAux_cons_dup bk (fuzzyAux bk st i (pre ++ d1 :: mid)).2
      (i + (pre ++ d1 :: mid).length) post h2 hq2]

/-- Witness for C10: `"a"` and a whitespace-only text on a fresh default
Fuzzy instance. -/
theorem fuzzy_c10_witness :
    createMinhash demoBackend (fuzzyGetNgrams (Doc.mk "a" none).text
        demoFuzzyFresh.ngram_size) =
      createMinhash demoBackend (fuzzyGetNgrams (Doc.mk "  " none).text
        demoFuzzyFresh.ngram_size) ∧
    createMinhash demoBackend (fuzzyGetNgrams (Doc.mk "  " none).text
        demoFuzzyFresh.ngram_size) = sentinelSig demoBackend ∧
    fuzzyAux demoBackend demoFuzzyFresh 0
        (([] ++ Doc.mk "a" none :: []) ++ Doc.mk "  " none :: []) =
      ((fuzzyAux demoBackend demoFuzzyFresh 0 ([] ++ Doc.mk "a" none :: [])).1 ++
         (fuzzyAux demoBackend
            (fuzzyAux demoBackend demoFuzzyFresh 0 ([] ++ Doc.mk "a" none :: [])).2
            (0 + ([] ++ Doc.mk "a" none :: []).length + 1) []).1,
       (fuzzyAux demoBackend
          (fuzzyAux demoBackend demoFuzzyFresh 0 ([] ++ Doc.mk "a" none :: [])).2
          (0 + ([] ++ Doc.mk "a" none :: []).length + 1) []).2) :=
  FuzzyDeduplicator.short_text_collapse demoBackend demoFuzzyFresh 0 [] [] []
    (Doc.mk "a" none) (Doc.mk "  " none) (by decide) (by decide) (by decide)
    (by decide) (by decide)

/-- C8: the dispatch function selects the Exact, Fuzzy or Soft strategy
for the names `exact`, `fuzzy`, `soft` and applies it to the documents
(on a fresh instance, propagating any construction error); every other
name raises a configuration error — never a silent fallback. -/
theorem deduplicate_documents_dispatch (bk : Backend) (h : String → String)
    (docs : List Doc) (cfg : Config) (m : String)
    (hm1 : m ≠ "exact") (hm2 : m ≠ "fuzzy") (hm3 : m ≠ "soft") :
    deduplicate_documents bk h docs "exact" cfg =
      .ok (ExactDeduplicator.deduplicate h (exactInit cfg) docs).1 ∧
    deduplicate_documents bk h docs "fuzzy" cfg =
      (fuzzyInit bk cfg).map (fun st => (FuzzyDeduplicator.deduplicate bk st docs).1) ∧
    deduplicate_documents bk h docs "soft" cfg =
      (SoftDeduplicator.deduplicate bk (softInit cfg) docs).map (·.1) ∧
    deduplicate_documents bk h docs m cfg =
      .error (.configurationError ("Unbekannte Methode: " ++ m)) := by
  refine ⟨rfl, ?_, ?_, ?_⟩
  · show (if ("fuzzy" : String) = "exact" then _ else _) = _
    rw [if_neg (by decide), if_pos rfl]
    cases fuzzyInit bk cfg <;> rfl
  · show (if ("soft" : String) = "exact" then _ else _) = _
    rw [if_neg (by decide), if_neg (by decide), if_pos rfl]
    cases SoftDeduplicator.deduplicate bk (softInit cfg) docs <;> rfl
  · show (if m = "exact" then _ else _) = _
    rw [if_neg hm1, if_neg hm2, if_neg hm3]

/-- Witness for C8 at the unknown method name `"bogus"`. -/
theorem dispatch_c8_witness :
    deduplicate_documents demoBackend (fun s => s) [] "exact" [] =
      .ok (ExactDeduplicator.deduplicate (fun s => s) (exactInit []) []).1 ∧
    deduplicate_documents demoBackend (fun s => s) [] "fuzzy" [] =
      (fuzzyInit demoBackend []).map
        (fun st => (FuzzyDeduplicator.deduplicate demoBackend st []).1) ∧
    deduplicate_documents demoBackend (fun s => s) [] "soft" [] =
      (SoftDeduplicator.deduplicate demoBackend (softInit []) []).map (·.1) ∧
    deduplicate_documents demoBackend (fun s => s) [] "bogus" [] =
      .error (.configurationError ("Unbekannte Methode: " ++ "bogus")) :=
  deduplicate_documents_dispatch demoBackend (fun s => s) [] [] "bogus"
    (by decide) (by decide) (by decide)

/-! ## Cluster map lemmas (Soft dedup) -/

/-- Total number of occurrences of a document index across all cluster
member lists. -/
def totalCount (m : List (String × List Nat)) (i : Nat) : Nat :=
  (m.map fun p => p.2.count i).sum

lemma count_append_singleton (l : List Nat) (i v : Nat) :
    (l ++ [v]).count i = l.count i + (if i = v then 1 else 0) := by
  rw [List.count_append]
  by_cases hiv : i = v
  · subst hiv
    simp
  · simp [List.count_singleton', hiv]

lemma clGet_clAppend_self : ∀ (m : List (String × List Nat)) (k : String) (v : Nat),
    clGet (clAppend m k v) k = clGet m k ++ [v] := by
  intro m
  induction m with
  | nil => intro k v; simp [clAppend, clGet]
  | cons e m ih =>
    intro k v
    obtain ⟨k', l⟩ := e
    by_cases hk : k = k'
    · subst hk
      simp [clAppend, clGet]
    · simp only [clAppend, if_neg hk, clGet, if_neg hk]
      exact ih k v

lemma clGet_clAppend_ne : ∀ (m : List (String × List Nat)) (k : String) (v : Nat)
    (k' : String), k' ≠ k → clGet (clAppend m k v) k' = clGet m k' := by
  intro m
  induction m with
  | nil => intro k v k' hk; simp [clAppend, clGet, hk]
  | cons e m ih =>
    intro k v k' hk
    obtain ⟨k0, l⟩ := e
    by_cases hkk : k = k0
    · subst hkk
      simp only [clAppend, if_pos rfl, clGet, if_neg hk]
    · simp only [clAppend, if_neg hkk, clGet]
      by_cases hk' : k' = k0
      · rw [if_pos hk', if_pos hk']
      · rw [if_neg hk', if_neg hk']
        exact ih k v k' hk

lemma count_singleton_ite (i v : Nat) :
    List.count i [v] = if i = v then 1 else 0 := by
  by_cases hiv : i = v
  · subst hiv
    simp
  · simp [List.count_singleton', hiv]

lemma totalCount_clAppend : ∀ (m : List (String × List Nat)) (k : String)
    (v i : Nat), totalCount (clAppend m k v) i =
      totalCount m i + (if i = v then 1 else 0) := by
  intro m
  induction m with
  | nil =>
    intro k v i
    simp only [clAppend, totalCount, List.map_cons, List.map_nil, List.sum_cons,
      List.sum_nil, count_singleton_ite]
    omega
  | cons e m ih =>
    intro k v i
    obtain ⟨k0, l⟩ := e
    by_cases hk : k = k0
    · subst hk
      simp only [clAppend, if_true]
      simp only [totalCount, List.map_cons, List.sum_cons, count_append_singleton]
      omega
    · simp only [clAppend, if_neg hk, totalCount, List.map_cons, List.sum_cons]
      have := ih k v i
      simp only [totalCount] at this
      omega

lemma count_clGet_le_totalCount : ∀ (m : List (String × List Nat)) (k : String)
    (i : Nat), (clGet m k).count i ≤ totalCount m i := by
  intro m
  induction m with
  | nil => intro k i; simp [clGet, totalCount]
  | cons e m ih =>
    intro k i
    obtain ⟨k0, l⟩ := e
    simp only [clGet, totalCount, List.map_cons, List.sum_cons]
    by_cases hk : k = k0
    · rw [if_pos hk]
      omega
    · rw [if_neg hk]
      have := ih k i
      simp only [totalCount] at this
      omega

lemma mem_clGet_clAppend {m : List (String × List Nat)} {k' : String} {i : Nat}
    (h : i ∈ clGet m k') (k : String) (v : Nat) :
    i ∈ clGet (clAppend m k v) k' := by
  by_cases hk : k' = k
  · subst hk
    rw [clGet_clAppend_self]
    exact List.mem_append_left _ h
  · rw [clGet_clAppend_ne m k v k' hk]
    exact h

/-! ## The clustering invariant (C9, and cluster sizes for C3) -/

/-- Invariant of `_cluster_documents`' state: an unassigned index appears
in no cluster; an assigned index appears exactly once over all clusters,
and in particular in its own cluster; and every id inserted into the
per-call LSH index has a cluster assignment. -/
def ClusterInv (c : ClusterSt) : Prop :=
  (∀ i, alGet c.doc_to_cluster i = none → totalCount c.clusters i = 0) ∧
  (∀ i cid, alGet c.doc_to_cluster i = some cid →
     totalCount c.clusters i = 1 ∧ i ∈ clGet c.clusters cid) ∧
  (∀ id ∈ c.lsh.entries.map (·.1), alGet c.doc_to_cluster id ≠ none)

/-- Appending a fresh index to some cluster and recording the reverse
mapping preserves the invariant (shared by the new-cluster and the
join-first-candidate branches of `clusterStep`). -/
lemma assign_inv (cl : List (String × List Nat)) (d2c : List (Nat × String))
    (ids : List Nat) (idx : Nat) (cid : String)
    (h0 : ∀ i, alGet d2c i = none → totalCount cl i = 0)
    (h1 : ∀ i cid0, alGet d2c i = some cid0 →
       totalCount cl i = 1 ∧ i ∈ clGet cl cid0)
    (h2 : ∀ id ∈ ids, alGet d2c id ≠ none)
    (hidx : alGet d2c idx = none) :
    (∀ i, alGet ((idx, cid) :: d2c) i = none →
       totalCount (clAppend cl cid idx) i = 0) ∧
    (∀ i cid0, alGet ((idx, cid) :: d2c) i = some cid0 →
       totalCount (clAppend cl cid idx) i = 1 ∧
       i ∈ clGet (clAppend cl cid idx) cid0) ∧
    (∀ id ∈ ids ++ [idx], alGet ((idx, cid) :: d2c) id ≠ none) := by
  refine ⟨?_, ?_, ?_⟩
  · intro i hi
    simp only [alGet] at hi
    by_cases hii : i = idx
    · rw [if_pos hii] at hi
      cases hi
    · rw [if_neg hii] at hi
      rw [totalCount_clAppend, if_neg hii, h0 i hi]
  · intro i cid0 hi
    simp only [alGet] at hi
    by_cases hii : i = idx
    · rw [if_pos hii] at hi
      subst hii
      have hcid : cid0 = cid := (Option.some.injEq _ _).mp hi.symm
      subst hcid
      constructor
      · rw [totalCount_clAppend, if_pos rfl, h0 i hidx]
      · rw [clGet_clAppend_self]
        exact List.mem_append_right _ (List.mem_singleton_self i)
    · rw [if_neg hii] at hi
      rcases h1 i cid0 hi with ⟨htc, hmem⟩
      constructor
      · rw [totalCount_clAppend, if_neg hii, htc]
      · exact mem_clGet_clAppend hmem cid idx
  · intro id hid
    simp only [alGet]
    rcases List.mem_append.mp hid with hmem | hmem
    · by_cases hii : id = idx
      · rw [if_pos hii]
        exact Option.some_ne_none _
      · rw [if_neg hii]
        exact h2 id hmem
    · rw [if_pos (List.mem_singleton.mp hmem)]
      exact Option.some_ne_none _

lemma clusterStep_eq_nil (c : ClusterSt) (idx : Nat) (mh : List Nat)
    (hq : c.lsh.query mh = []) :
    clusterStep c idx mh =
      { clusters := clAppend c.clusters ("cluster_" ++ toString c.counter) idx,
        doc_to_cluster := (idx, "cluster_" ++ toString c.counter) :: c.doc_to_cluster,
        counter := c.counter + 1,
        lsh := c.lsh.insert idx mh } := by
  unfold clusterStep
  rw [hq]

lemma clusterStep_eq_some (c : ClusterSt) (idx : Nat) (mh : List Nat)
    (s0 : Nat) (tl : List Nat) (cid : String)
    (hq : c.lsh.query mh = s0 :: tl)
    (halg : alGet c.doc_to_cluster s0 = some cid) :
    clusterStep c idx mh =
      { clusters := clAppend c.clusters cid idx,
        doc_to_cluster := (idx, cid) :: c.doc_to_cluster,
        counter := c.counter,
        lsh := c.lsh.insert idx mh } := by
  unfold clusterStep
  rw [hq]
  simp only [halg]

/-- One `clusterStep` on a not-yet-assigned index: the invariant is
preserved, the index is now assigned, and no other assignment changed
(in particular `cluster_id is None` never happens for a candidate, since
every id in the index is assigned). -/
lemma clusterStep_inv (c : ClusterSt) (hInv : ClusterInv c) (idx : Nat)
    (mh : List Nat) (hidx : alGet c.doc_to_cluster idx = none) :
    ClusterInv (clusterStep c idx mh) ∧
    alGet (clusterStep c idx mh).doc_to_cluster idx ≠ none ∧
    (∀ i, i ≠ idx →
       alGet (clusterStep c idx mh).doc_to_cluster i = alGet c.doc_to_cluster i) := by
  obtain ⟨h0, h1, h2⟩ := hInv
  have hids : (c.lsh.insert idx mh).entries.map (·.1) =
      c.lsh.entries.map (·.1) ++ [idx] := by
    simp [LSH.insert]
  cases hq : c.lsh.query mh with
  | nil =>
    rw [clusterStep_eq_nil c idx mh hq]
    have ha := assign_inv c.clusters c.doc_to_cluster (c.lsh.entries.map (·.1))
      idx ("cluster_" ++ toString c.counter) h0 h1 h2 hidx
    refine ⟨⟨ha.1, ha.2.1, ?_⟩, ?_, ?_⟩
    · intro id hid
      have hid' : id ∈ (c.lsh.insert idx mh).entries.map (·.1) := hid
      rw [hids] at hid'
      exact ha.2.2 id hid'
    · simp [alGet]
    · intro i hi
      simp [alGet, hi]
  | cons s0 tl =>
    have hs0 : s0 ∈ c.lsh.query mh := by
      rw [hq]
      exact List.mem_cons_self _ _
    have hs0id : s0 ∈ c.lsh.entries.map (·.1) := c.lsh.mem_query_mem_ids hs0
    cases halg : alGet c.doc_to_cluster s0 with
    | none => exact absurd halg (h2 s0 hs0id)
    | some cid =>
      rw [clusterStep_eq_some c idx mh s0 tl cid hq halg]
      have ha := assign_inv c.clusters c.doc_to_cluster (c.lsh.entries.map (·.1))
        idx cid h0 h1 h2 hidx
      refine ⟨⟨ha.1, ha.2.1, ?_⟩, ?_, ?_⟩
      · intro id hid
        have hid' : id ∈ (c.lsh.insert idx mh).entries.map (·.1) := hid
        rw [hids] at hid'
        exact ha.2.2 id hid'
      · simp [alGet]
      · intro i hi
        simp [alGet, hi]

lemma clusterDocs_append : ∀ (l1 l2 : List (Nat × List Nat)) (c : ClusterSt),
    clusterDocs c (l1 ++ l2) = clusterDocs (clusterDocs c l1) l2 := by
  intro l1
  induction l1 with
  | nil => intro l2 c; rfl
  | cons p l1 ih =>
    intro l2 c
    obtain ⟨i, mh⟩ := p
    simp only [List.cons_append, clusterDocs]
    exact ih l2 (clusterStep c i mh)

/-- Running `_cluster_documents` from a state satisfying the invariant,
over signatures whose indices are fresh and pairwise distinct: the
invariant holds at the end, every processed index ends up assigned, and
assignments of other indices are untouched. -/
lemma clusterDocs_main : ∀ (dm : List (Nat × List Nat)) (c : ClusterSt),
    ClusterInv c → (∀ p ∈ dm, alGet c.doc_to_cluster p.1 = none) →
    (dm.map (·.1)).Nodup →
    ClusterInv (clusterDocs c dm) ∧
    (∀ p ∈ dm, alGet (clusterDocs c dm).doc_to_cluster p.1 ≠ none) ∧
    (∀ i, alGet c.doc_to_cluster i ≠ none →
       alGet (clusterDocs c dm).doc_to_cluster i = alGet c.doc_to_cluster i) ∧
    (∀ i, alGet c.doc_to_cluster i = none → (∀ p ∈ dm, p.1 ≠ i) →
       alGet (clusterDocs c dm).doc_to_cluster i = none) := by
  intro dm
  induction dm with
  | nil =>
    intro c hInv _ _
    exact ⟨hInv, fun p hp => absurd hp (List.not_mem_nil p),
      fun i _ => rfl, fun i hi _ => hi⟩
  | cons p dm ih =>
    intro c hInv hun hnd
    obtain ⟨idx, mh⟩ := p
    have hidx : alGet c.doc_to_cluster idx = none :=
      hun (idx, mh) (List.mem_cons_self _ _)
    have hstep := clusterStep_inv c hInv idx mh hidx
    have hndc : idx ∉ dm.map (·.1) ∧ (dm.map (·.1)).Nodup := by
      rw [List.map_cons] at hnd
      exact List.nodup_cons.mp hnd
    have hun' : ∀ q ∈ dm, alGet (clusterStep c idx mh).doc_to_cluster q.1 = none := by
      intro q hq
      have hqi : q.1 ≠ idx := by
        intro hc
        exact hndc.1 (hc ▸ List.mem_map_of_mem (·.1) hq)
      rw [hstep.2.2 q.1 hqi]
      exact hun q (List.mem_cons_of_mem _ hq)
    have ihr := ih (clusterStep c idx mh) hstep.1 hun' hndc.2
    simp only [clusterDocs]
    refine ⟨ihr.1, ?_, ?_, ?_⟩
    · intro q hq
      rcases List.mem_cons.mp hq with hq0 | hq'
      · rw [hq0]
        rw [ihr.2.2.1 idx hstep.2.1]
        exact hstep.2.1
      · exact ihr.2.1 q hq'
    · intro i hi
      have hii : i ≠ idx := fun hc => hi (hc ▸ hidx)
      rw [ihr.2.2.1 i (by rw [hstep.2.2 i hii]; exact hi), hstep.2.2 i hii]
    · intro i hi hni
      have hii : i ≠ idx := fun hc => (hni (idx, mh) (List.mem_cons_self _ _)) (hc ▸ rfl)
      refine ihr.2.2.2 i ?_ ?_
      · rw [hstep.2.2 i hii]
        exact hi
      · intro q hq
        exact hni q (List.mem_cons_of_mem _ hq)

/-! ## Collected signatures and weight assignment -/

lemma collect_index_ge (bk : Backend) :
    ∀ (docs : List Doc) (i : Nat) (p : Nat × List Nat),
      p ∈ collectMinhashes bk i docs → i ≤ p.1 := by
  intro docs
  induction docs with
  | nil => intro i p hp; cases hp
  | cons d rest ih =>
    intro i p hp
    by_cases hd : d.text = ""
    · simp only [collectMinhashes, if_pos hd] at hp
      exact Nat.le_of_succ_le (ih (i + 1) p hp)
    · simp only [collectMinhashes, if_neg hd] at hp
      rcases List.mem_cons.mp hp with hp0 | hp'
      · rw [hp0]
      · exact Nat.le_of_succ_le (ih (i + 1) p hp')

lemma collect_nodup (bk : Backend) :
    ∀ (docs : List Doc) (i : Nat),
      ((collectMinhashes bk i docs).map (·.1)).Nodup := by
  intro docs
  induction docs with
  | nil => intro i; simp [collectMinhashes]
  | cons d rest ih =>
    intro i
    by_cases hd : d.text = ""
    · simp only [collectMinhashes, if_pos hd]
      exact ih (i + 1)
    · simp only [collectMinhashes, if_neg hd, List.map_cons]
      rw [List.nodup_cons]
      refine ⟨?_, ih (i + 1)⟩
      intro hc
      rcases List.mem_map.mp hc with ⟨p, hp, hpi⟩
      have := collect_index_ge bk rest (i + 1) p hp
      omega

lemma collect_mem_of_get (bk : Backend) :
    ∀ (docs : List Doc) (i k : Nat) (hk : k < docs.length),
      (docs.get ⟨k, hk⟩).text ≠ "" →
      (i + k, softCreateMinhash bk (docs.get ⟨k, hk⟩).text) ∈
        collectMinhashes bk i docs := by
  intro docs
  induction docs with
  | nil => intro i k hk; cases hk
  | cons d rest ih =>
    intro i k hk hne
    cases k with
    | zero =>
      have hd : ¬d.text = "" := hne
      simp only [collectMinhashes, if_neg hd]
      exact List.mem_cons_self _ _
    | succ k =>
      have hk' : k < rest.length := Nat.lt_of_succ_lt_succ hk
      have hmem := ih (i + 1) k hk' hne
      have hidx : i + (k + 1) = (i + 1) + k := by omega
      rw [hidx]
      by_cases hd : d.text = ""
      · simp only [collectMinhashes, if_pos hd]
        exact hmem
      · simp only [collectMinhashes, if_neg hd]
        exact List.mem_cons_of_mem _ hmem

lemma collect_mem_index (bk : Backend) :
    ∀ (docs : List Doc) (i : Nat) (p : Nat × List Nat),
      p ∈ collectMinhashes bk i docs →
      ∃ k, ∃ hk : k < docs.length, p.1 = i + k ∧ (docs.get ⟨k, hk⟩).text ≠ "" := by
  intro docs
  induction docs with
  | nil => intro i p hp; cases hp
  | cons d rest ih =>
    intro i p hp
    by_cases hd : d.text = ""
    · simp only [collectMinhashes, if_pos hd] at hp
      rcases ih (i + 1) p hp with ⟨k, hk, hpk, hne⟩
      exact ⟨k + 1, Nat.succ_lt_succ hk, by omega, hne⟩
    · simp only [collectMinhashes, if_neg hd] at hp
      rcases List.mem_cons.mp hp with hp0 | hp'
      · refine ⟨0, Nat.succ_pos _, ?_, hd⟩
        rw [hp0]
        omega
      · rcases ih (i + 1) p hp' with ⟨k, hk, hpk, hne⟩
        exact ⟨k + 1, Nat.succ_lt_succ hk, by omega, hne⟩

lemma assignWeights_length (rf : ℚ) (cl : List (String × List Nat))
    (d2c : List (Nat × String)) :
    ∀ (docs : List Doc) (i : Nat),
      (assignWeights rf cl d2c i docs).length = docs.length := by
  intro docs
  induction docs with
  | nil => intro i; rfl
  | cons d rest ih =>
    intro i
    simp only [assignWeights, List.length_cons, ih (i + 1)]

lemma assignWeights_get (rf : ℚ) (cl : List (String × List Nat))
    (d2c : List (Nat × String)) :
    ∀ (docs : List Doc) (i k : Nat) (hk : k < docs.length)
      (hk' : k < (assignWeights rf cl d2c i docs).length),
      (assignWeights rf cl d2c i docs).get ⟨k, hk'⟩ =
        (match alGet d2c (i + k) with
         | none => { docs.get ⟨k, hk⟩ with weight := some 1 }
         | some cid =>
           { docs.get ⟨k, hk⟩ with
             weight := some (max rf (1 / ((clGet cl cid).length : ℚ))) }) := by
  intro docs
  induction docs with
  | nil => intro i k hk; cases hk
  | cons d rest ih =>
    intro i k hk hk'
    cases k with
    | zero =>
      show (match alGet d2c i with
            | none => { d with weight := some 1 }
            | some cid =>
              { d with weight := some (max rf (1 / ((clGet cl cid).length : ℚ))) }) = _
      rw [show i + 0 = i from rfl]
      rfl
    | succ k =>
      have hk2 : k < rest.length := Nat.lt_of_succ_lt_succ hk
      have hk2' : k < (assignWeights rf cl d2c (i + 1) rest).length := by
        rw [assignWeights_length]
        exact hk2
      have := ih (i + 1) k hk2 hk2'
      have hidx : i + (k + 1) = (i + 1) + k := by omega
      rw [hidx]
      exact this

/-- C3: on a fresh `SoftDeduplicator` instance (with any `reweight_factor
≤ 1`, the spec's floor-weight range), `deduplicate` returns a sequence of
the same length and order; an unclustered document (exactly the empty-text
ones) gets weight 1.0; a document in a cluster of final size `s` gets
`max(reweight_factor, 1/s)`; hence every weight lies in
`[reweight_factor, 1]` and singleton clusters get exactly 1.0. -/
theorem SoftDeduplicator.deduplicate_weight_bounds (bk : Backend)
    (rf thr : ℚ) (np : Int) (docs out : List Doc) (st' : SoftState)
    (hrf : rf ≤ 1)
    (hrun : SoftDeduplicator.deduplicate bk ⟨rf, thr, np, [], []⟩ docs = .ok (out, st')) :
    out.length = docs.length ∧
    ∀ k (hk : k < docs.length) (hk' : k < out.length),
      (out.get ⟨k, hk'⟩).text = (docs.get ⟨k, hk⟩).text ∧
      ((docs.get ⟨k, hk⟩).text = "" →
        alGet st'.doc_to_cluster k = none ∧ (out.get ⟨k, hk'⟩).weight = some 1) ∧
      (∀ cid, alGet st'.doc_to_cluster k = some cid →
        (out.get ⟨k, hk'⟩).weight =
          some (max rf (1 / ((clGet st'.clusters cid).length : ℚ))) ∧
        1 ≤ (clGet st'.clusters cid).length ∧
        ((clGet st'.clusters cid).length = 1 → (out.get ⟨k, hk'⟩).weight = some 1)) ∧
      (∃ w, (out.get ⟨k, hk'⟩).weight = some w ∧ rf ≤ w ∧ w ≤ 1) := by
  simp only [SoftDeduplicator.deduplicate] at hrun
  cases hmk : mkLSH (α := ℕ) bk thr np with
  | error e =>
    rw [hmk] at hrun
    exact Except.noConfusion hrun
  | ok lsh0 =>
    rw [hmk] at hrun
    simp only [Except.ok.injEq, Prod.mk.injEq] at hrun
    obtain ⟨hout, hst⟩ := hrun
    subst hout
    have hl : lsh0.entries = [] := by
      unfold mkLSH at hmk
      by_cases h1 : thr < 0 ∨ 1 < thr
      · rw [if_pos h1] at hmk
        exact Except.noConfusion hmk
      · rw [if_neg h1] at hmk
        by_cases h2 : np ≤ 0
        · rw [if_pos h2] at hmk
          exact Except.noConfusion hmk
        · rw [if_neg h2] at hmk
          injection hmk with h
          rw [← h]
    have inv0 : ClusterInv ⟨[], [], 0, lsh0⟩ := by
      refine ⟨fun i _ => rfl, fun i cid hc => Option.noConfusion hc, ?_⟩
      intro id hid
      have hid' : id ∈ lsh0.entries.map (·.1) := hid
      rw [hl] at hid'
      cases hid'
    have main := clusterDocs_main (collectMinhashes bk 0 docs) ⟨[], [], 0, lsh0⟩
      inv0 (fun _ _ => rfl) (collect_nodup bk docs 0)
    have hstc : st'.clusters =
        (clusterDocs ⟨[], [], 0, lsh0⟩ (collectMinhashes bk 0 docs)).clusters := by
      rw [← hst]
    have hstd : st'.doc_to_cluster =
        (clusterDocs ⟨[], [], 0, lsh0⟩ (collectMinhashes bk 0 docs)).doc_to_cluster := by
      rw [← hst]
    refine ⟨assignWeights_length _ _ _ docs 0, ?_⟩
    intro k hk hk'
    have hget := assignWeights_get rf
      (clusterDocs ⟨[], [], 0, lsh0⟩ (collectMinhashes bk 0 docs)).clusters
      (clusterDocs ⟨[], [], 0, lsh0⟩ (collectMinhashes bk 0 docs)).doc_to_cluster
      docs 0 k hk hk'
    rw [Nat.zero_add] at hget
    rcases halg : alGet (clusterDocs ⟨[], [], 0, lsh0⟩
        (collectMinhashes bk 0 docs)).doc_to_cluster k with _ | cid
    · rw [halg] at hget
      have ht : ((assignWeights rf
          (clusterDocs ⟨[], [], 0, lsh0⟩ (collectMinhashes bk 0 docs)).clusters
          (clusterDocs ⟨[], [], 0, lsh0⟩ (collectMinhashes bk 0 docs)).doc_to_cluster
          0 docs).get ⟨k, hk'⟩).text = (docs.get ⟨k, hk⟩).text := by
        rw [hget]
      have hw : ((assignWeights rf
          (clusterDocs ⟨[], [], 0, lsh0⟩ (collectMinhashes bk 0 docs)).clusters
          (clusterDocs ⟨[], [], 0, lsh0⟩ (collectMinhashes bk 0 docs)).doc_to_cluster
          0 docs).get ⟨k, hk'⟩).weight = some 1 := by
        rw [hget]
      refine ⟨ht, ?_, ?_, ?_⟩
      · intro _
        rw [hstd, halg]
        exact ⟨rfl, hw⟩
      · intro cid hc
        rw [hstd, halg] at hc
        cases hc
      · exact ⟨1, hw, hrf, le_refl 1⟩
    · rw [halg] at hget
      have ht : ((assignWeights rf
          (clusterDocs ⟨[], [], 0, lsh0⟩ (collectMinhashes bk 0 docs)).clusters
          (clusterDocs ⟨[], [], 0, lsh0⟩ (collectMinhashes bk 0 docs)).doc_to_cluster
          0 docs).get ⟨k, hk'⟩).text = (docs.get ⟨k, hk⟩).text := by
        rw [hget]
      have hw : ((assignWeights rf
          (clusterDocs ⟨[], [], 0, lsh0⟩ (collectMinhashes bk 0 docs)).clusters
          (clusterDocs ⟨[], [], 0, lsh0⟩ (collectMinhashes bk 0 docs)).doc_to_cluster
          0 docs).get ⟨k, hk'⟩).weight =
          some (max rf (1 / ((clGet (clusterDocs ⟨[], [], 0, lsh0⟩
            (collectMinhashes bk 0 docs)).clusters cid).length : ℚ))) := by
        rw [hget]
      have hinv := main.1.2.1 k cid halg
      have hlen : 1 ≤ (clGet (clusterDocs ⟨[], [], 0, lsh0⟩
          (collectMinhashes bk 0 docs)).clusters cid).length :=
        List.length_pos.mpr (List.ne_nil_of_mem hinv.2)
      have hnotempty : (docs.get ⟨k, hk⟩).text ≠ "" := by
        intro hempty
        have hnone : alGet (clusterDocs ⟨[], [], 0, lsh0⟩
            (collectMinhashes bk 0 docs)).doc_to_cluster k = none := by
          refine main.2.2.2 k rfl ?_
          intro p hp hpk
          rcases collect_mem_index bk docs 0 p hp with ⟨k2, hk2m, hpk2, hne2⟩
          rw [Nat.zero_add] at hpk2
          have hkk : k2 = k := by omega
          subst hkk
          exact hne2 hempty
        rw [hnone] at halg
        cases halg
      have hdivle : (1 : ℚ) / ((clGet (clusterDocs ⟨[], [], 0, lsh0⟩
          (collectMinhashes bk 0 docs)).clusters cid).length : ℚ) ≤ 1 := by
        have hcast : (1 : ℚ) ≤ ((clGet (clusterDocs ⟨[], [], 0, lsh0⟩
            (collectMinhashes bk 0 docs)).clusters cid).length : ℚ) := by
          exact_mod_cast hlen
        rw [div_le_one (lt_of_lt_of_le zero_lt_one hcast)]
        exact hcast
      refine ⟨ht, ?_, ?_, ?_⟩
      · intro hempty
        exact absurd hempty hnotempty
      · intro cid' hc
        rw [hstd, halg] at hc
        injection hc with hcc
        subst hcc
        rw [hstc]
        refine ⟨hw, hlen, ?_⟩
        intro hone
        rw [hw, hone]
        norm_num [max_eq_right hrf]
      · exact ⟨max rf (1 / ((clGet (clusterDocs ⟨[], [], 0, lsh0⟩
          (collectMinhashes bk 0 docs)).clusters cid).length : ℚ)),
          hw, le_max_left _ _, max_le hrf hdivle⟩

/-- Witness for C3: one empty-text document through a fresh default Soft
instance. -/
theorem soft_c3_witness :
    ([Doc.mk "" (some 1)] : List Doc).length = ([Doc.mk "" none] : List Doc).length ∧
    ∀ k (hk : k < ([Doc.mk "" none] : List Doc).length)
      (hk' : k < ([Doc.mk "" (some 1)] : List Doc).length),
      (([Doc.mk "" (some 1)] : List Doc).get ⟨k, hk'⟩).text =
        (([Doc.mk "" none] : List Doc).get ⟨k, hk⟩).text ∧
      ((([Doc.mk "" none] : List Doc).get ⟨k, hk⟩).text = "" →
        alGet (SoftState.mk (1/2) (17/20) 128 [] []).doc_to_cluster k = none ∧
        (([Doc.mk "" (some 1)] : List Doc).get ⟨k, hk'⟩).weight = some 1) ∧
      (∀ cid, alGet (SoftState.mk (1/2) (17/20) 128 [] []).doc_to_cluster k = some cid →
        (([Doc.mk "" (some 1)] : List Doc).get ⟨k, hk'⟩).weight =
          some (max (1/2) (1 / ((clGet (SoftState.mk (1/2) (17/20) 128 [] []).clusters
            cid).length : ℚ))) ∧
        1 ≤ (clGet (SoftState.mk (1/2) (17/20) 128 [] []).clusters cid).length ∧
        ((clGet (SoftState.mk (1/2) (17/20) 128 [] []).clusters cid).length = 1 →
          (([Doc.mk "" (some 1)] : List Doc).get ⟨k, hk'⟩).weight = some 1)) ∧
      (∃ w, (([Doc.mk "" (some 1)] : List Doc).get ⟨k, hk'⟩).weight = some w ∧
        (1:ℚ)/2 ≤ w ∧ w ≤ 1) :=
  SoftDeduplicator.deduplicate_weight_bounds demoBackend (1/2) (17/20) 128
    [Doc.mk "" none] [Doc.mk "" (some 1)] (SoftState.mk (1/2) (17/20) 128 [] [])
    (by norm_num)
    (by norm_num [SoftDeduplicator.deduplicate, mkLSH, collectMinhashes,
      clusterDocs, assignWeights, alGet])

/-- The invariant holds on the fresh per-call clustering state. -/
lemma fresh_cluster_inv (lsh0 : LSH Nat) (h0 : lsh0.entries = []) :
    ClusterInv ⟨[], [], 0, lsh0⟩ := by
  refine ⟨fun i _ => rfl, fun i cid hc => Option.noConfusion hc, ?_⟩
  intro id hid
  have hid' : id ∈ lsh0.entries.map (·.1) := hid
  rw [h0] at hid'
  cases hid'

/-- C9: within one `deduplicate` call on a fresh (or reset)
`SoftDeduplicator`, the cluster maps stay mutually consistent: every
document with non-empty text is assigned to exactly one cluster (its
index appears in its own cluster's member list exactly once and nowhere
else), every id inserted into the per-call LSH index has a cluster
assignment, and whenever a candidate list is non-empty its first element
already has an assignment — the `cluster_id is None` branch is
unreachable. -/
theorem SoftDeduplicator.cluster_consistency (bk : Backend) (lsh0 : LSH Nat)
    (docs : List Doc) (h0 : lsh0.entries = []) :
    (∀ k (hk : k < docs.length), (docs.get ⟨k, hk⟩).text ≠ "" →
      ∃ cid,
        alGet (clusterDocs ⟨[], [], 0, lsh0⟩
          (collectMinhashes bk 0 docs)).doc_to_cluster k = some cid ∧
        k ∈ clGet (clusterDocs ⟨[], [], 0, lsh0⟩
          (collectMinhashes bk 0 docs)).clusters cid ∧
        (clGet (clusterDocs ⟨[], [], 0, lsh0⟩
          (collectMinhashes bk 0 docs)).clusters cid).count k = 1 ∧
        totalCount (clusterDocs ⟨[], [], 0, lsh0⟩
          (collectMinhashes bk 0 docs)).clusters k = 1) ∧
    (∀ id ∈ (clusterDocs ⟨[], [], 0, lsh0⟩
        (collectMinhashes bk 0 docs)).lsh.entries.map (·.1),
      alGet (clusterDocs ⟨[], [], 0, lsh0⟩
        (collectMinhashes bk 0 docs)).doc_to_cluster id ≠ none) ∧
    (∀ dm1 p dm2, collectMinhashes bk 0 docs = dm1 ++ p :: dm2 →
      ∀ s0 tl, (clusterDocs ⟨[], [], 0, lsh0⟩ dm1).lsh.query p.2 = s0 :: tl →
        alGet (clusterDocs ⟨[], [], 0, lsh0⟩ dm1).doc_to_cluster s0 ≠ none) := by
  have inv0 := fresh_cluster_inv lsh0 h0
  have main := clusterDocs_main (collectMinhashes bk 0 docs) ⟨[], [], 0, lsh0⟩
    inv0 (fun _ _ => rfl) (collect_nodup bk docs 0)
  refine ⟨?_, main.1.2.2, ?_⟩
  · intro k hk hne
    have hmem := collect_mem_of_get bk docs 0 k hk hne
    rw [Nat.zero_add] at hmem
    have hassigned := main.2.1 _ hmem
    rcases Option.ne_none_iff_exists'.mp hassigned with ⟨cid, hcid⟩
    have hinv := main.1.2.1 k cid hcid
    have hcpos : 0 < (clGet (clusterDocs ⟨[], [], 0, lsh0⟩
        (collectMinhashes bk 0 docs)).clusters cid).count k :=
      List.count_pos_iff.mpr hinv.2
    have hcle := count_clGet_le_totalCount (clusterDocs ⟨[], [], 0, lsh0⟩
      (collectMinhashes bk 0 docs)).clusters cid k
    refine ⟨cid, hcid, hinv.2, ?_, hinv.1⟩
    rw [hinv.1] at hcle
    omega
  · intro dm1 p dm2 hsplit s0 tl hq
    have hnd : (dm1.map (·.1)).Nodup := by
      have hall := collect_nodup bk docs 0
      rw [hsplit, List.map_append] at hall
      exact (List.nodup_append.mp hall).1
    have main1 := clusterDocs_main dm1 ⟨[], [], 0, lsh0⟩ inv0 (fun _ _ => rfl) hnd
    have hs0 : s0 ∈ (clusterDocs ⟨[], [], 0, lsh0⟩ dm1).lsh.query p.2 := by
      rw [hq]
      exact List.mem_cons_self _ _
    exact main1.1.2.2 s0
      ((clusterDocs ⟨[], [], 0, lsh0⟩ dm1).lsh.mem_query_mem_ids hs0)

/-- Witness for C9 on a two-document input over the demo backend. -/
theorem soft_c9_witness :
    (∀ k (hk : k < ([Doc.mk "hello" none, Doc.mk "world" none] : List Doc).length),
      (([Doc.mk "hello" none, Doc.mk "world" none] : List Doc).get ⟨k, hk⟩).text ≠ "" →
      ∃ cid,
        alGet (clusterDocs ⟨[], [], 0, LSH.mk 1 1 []⟩
          (collectMinhashes demoBackend 0
            [Doc.mk "hello" none, Doc.mk "world" none])).doc_to_cluster k = some cid ∧
        k ∈ clGet (clusterDocs ⟨[], [], 0, LSH.mk 1 1 []⟩
          (collectMinhashes demoBackend 0
            [Doc.mk "hello" none, Doc.mk "world" none])).clusters cid ∧
        (clGet (clusterDocs ⟨[], [], 0, LSH.mk 1 1 []⟩
          (collectMinhashes demoBackend 0
            [Doc.mk "hello" none, Doc.mk "world" none])).clusters cid).count k = 1 ∧
        totalCount (clusterDocs ⟨[], [], 0, LSH.mk 1 1 []⟩
          (collectMinhashes demoBackend 0
            [Doc.mk "hello" none, Doc.mk "world" none])).clusters k = 1) ∧
    (∀ id ∈ (clusterDocs ⟨[], [], 0, LSH.mk 1 1 []⟩
        (collectMinhashes demoBackend 0
          [Doc.mk "hello" none, Doc.mk "world" none])).lsh.entries.map (·.1),
      alGet (clusterDocs ⟨[], [], 0, LSH.mk 1 1 []⟩
        (collectMinhashes demoBackend 0
          [Doc.mk "hello" none, Doc.mk "world" none])).doc_to_cluster id ≠ none) ∧
    (∀ dm1 p dm2, collectMinhashes demoBackend 0
        [Doc.mk "hello" none, Doc.mk "world" none] = dm1 ++ p :: dm2 →
      ∀ s0 tl, (clusterDocs ⟨[], [], 0, LSH.mk 1 1 []⟩ dm1).lsh.query p.2 = s0 :: tl →
        alGet (clusterDocs ⟨[], [], 0, LSH.mk 1 1 []⟩ dm1).doc_to_cluster s0 ≠ none) :=
  SoftDeduplicator.cluster_consistency demoBackend (LSH.mk 1 1 [])
    [Doc.mk "hello" none, Doc.mk "world" none] rfl

/-! ## Soft dedup configuration surface (C4, C5) -/

lemma cfgGetQ_skip (k k' : String) (v : ConfigVal) (cfg : Config) (d : ℚ)
    (h : ¬k = k') : cfgGetQ ((k', v) :: cfg) k d = cfgGetQ cfg k d := by
  simp [cfgGetQ, h]

lemma cfgGetZ_skip (k k' : String) (v : ConfigVal) (cfg : Config) (d : Int)
    (h : ¬k = k') : cfgGetZ ((k', v) :: cfg) k d = cfgGetZ cfg k d := by
  simp [cfgGetZ, h]

/-- Counterexample to C4: supplying `threshold = 0.3` and `ngram_size = 7`
to the Soft deduplicator has no effect — the similarity threshold it will
use stays at the `similarity_threshold` default 0.85, and its shingles
are length-5 regardless. -/
theorem soft_config_ignored_counterexample :
    (softInit [("threshold", ConfigVal.qval (3/10)),
               ("ngram_size", ConfigVal.zval 7)]).similarity_threshold = 17/20 ∧
    (softInit [("threshold", ConfigVal.qval (3/10)),
               ("ngram_size", ConfigVal.zval 7)]).similarity_threshold ≠ 3/10 ∧
    softNgrams "abcdefgh" = ["abcde", "bcdef", "cdefg", "defgh"] := by
  refine ⟨?_, ?_, ?_⟩
  · show cfgGetQ _ "similarity_threshold" (17/20) = 17/20
    rw [cfgGetQ_skip _ _ _ _ _ (by decide), cfgGetQ_skip _ _ _ _ _ (by decide)]
    rfl
  · show cfgGetQ _ "similarity_threshold" (17/20) ≠ 3/10
    rw [cfgGetQ_skip _ _ _ _ _ (by decide), cfgGetQ_skip _ _ _ _ _ (by decide)]
    show ¬(17/20 : ℚ) = 3/10
    norm_num
  · decide

/-- C4 as the code actually behaves: the Soft deduplicator reads
`similarity_threshold` (default 0.85) as its LSH candidate threshold and
ignores configuration keys named `threshold` and `ngram_size` entirely;
its shingle length is fixed at 5 characters. -/
theorem soft_config_actual (cfg : Config) (v w : ConfigVal) (text t : String)
    (ht : t ∈ softNgrams text) :
    softInit (("threshold", v) :: ("ngram_size", w) :: cfg) = softInit cfg ∧
    (softInit cfg).similarity_threshold =
      cfgGetQ cfg "similarity_threshold" (17/20) ∧
    t.length = 5 := by
  refine ⟨?_, rfl, ?_⟩
  · simp only [softInit]
    rw [cfgGetQ_skip _ _ _ _ _ (by decide), cfgGetQ_skip _ _ _ _ _ (by decide),
      cfgGetQ_skip _ _ _ _ _ (by decide), cfgGetQ_skip _ _ _ _ _ (by decide),
      cfgGetZ_skip _ _ _ _ _ (by decide), cfgGetZ_skip _ _ _ _ _ (by decide)]
  · simp only [softNgrams] at ht
    rcases List.mem_map.mp ht with ⟨i, hi, hti⟩
    have hir := List.mem_range.mp hi
    rw [← hti]
    show ((normChars text).drop i |>.take 5).length = 5
    rw [List.length_take, List.length_drop]
    omega

/-- Witness for C4's amended statement on a concrete config and text. -/
theorem soft_c4_witness :
    ("abcde" : String) ∈ softNgrams "abcdefgh" ∧
    (softInit (("threshold", ConfigVal.qval (3/10)) ::
        ("ngram_size", ConfigVal.zval 7) :: []) = softInit [] ∧
     (softInit []).similarity_threshold = cfgGetQ [] "similarity_threshold" (17/20) ∧
     ("abcde" : String).length = 5) :=
  ⟨by decide, soft_config_actual [] (ConfigVal.qval (3/10)) (ConfigVal.zval 7)
    "abcdefgh" "abcde" (by decide)⟩

lemma mkLSH_error_iff {α : Type} (bk : Backend) (thr : ℚ) (np : Int) :
    (∃ e, mkLSH (α := α) bk thr np = .error e) ↔
      (thr < 0 ∨ 1 < thr ∨ np ≤ 0) := by
  unfold mkLSH
  by_cases h1 : thr < 0 ∨ 1 < thr
  · rw [if_pos h1]
    constructor
    · intro _
      rcases h1 with h | h
      · exact Or.inl h
      · exact Or.inr (Or.inl h)
    · intro _
      exact ⟨_, rfl⟩
  · rw [if_neg h1]
    by_cases h2 : np ≤ 0
    · rw [if_pos h2]
      constructor
      · intro _
        exact Or.inr (Or.inr h2)
      · intro _
        exact ⟨_, rfl⟩
    · rw [if_neg h2]
      constructor
      · rintro ⟨e, he⟩
        exact Except.noConfusion he
      · intro hc
        rcases hc with h | h | h
        · exact absurd (Or.inl h) h1
        · exact absurd (Or.inr h) h1
        · exact absurd h h2

lemma mkLSH_ok_of_valid {α : Type} (bk : Backend) (thr : ℚ) (np : Int)
    (h : ¬(thr < 0 ∨ 1 < thr ∨ np ≤ 0)) :
    mkLSH (α := α) bk thr np = .ok { b := bk.b, r := bk.r, entries := [] } := by
  push_neg at h
  unfold mkLSH
  rw [if_neg (by push_neg; exact ⟨h.1, h.2.1⟩), if_neg (by push_neg; exact h.2.2)]

/-- Counterexample to C5: `SoftDeduplicator` construction accepts
`similarity_threshold = 1.5` without any error, and the configuration
error is raised later, inside `deduplicate` — i.e. mid-stream. -/
theorem soft_midstream_error_counterexample :
    (softInit [("similarity_threshold", ConfigVal.qval (3/2))]).similarity_threshold
      = 3/2 ∧
    SoftDeduplicator.deduplicate demoBackend
        (softInit [("similarity_threshold", ConfigVal.qval (3/2))])
        [Doc.mk "hello" none] =
      .error (DedupError.configurationError "threshold outside [0,1]") := by
  constructor
  · rfl
  · have hbad : ((3:ℚ)/2 < 0 ∨ 1 < (3:ℚ)/2 ∨ (128:Int) ≤ 0) := by norm_num
    obtain ⟨e, he⟩ := (mkLSH_error_iff (α := ℕ) demoBackend (3/2) 128).mpr hbad
    simp only [SoftDeduplicator.deduplicate, softInit]
    norm_num [mkLSH, cfgGetQ, cfgGetZ]

/-- C5 as the code actually behaves: the Fuzzy deduplicator raises
invalid numeric parameters (threshold outside `[0,1]`, `num_perm ≤ 0`) at
construction time, because `__init__` builds its LSH index; the Soft
deduplicator performs no construction-time validation — its LSH is built
inside `deduplicate`, so with invalid parameters every `deduplicate`
call raises the configuration error mid-stream, and with valid
parameters every call succeeds. -/
theorem dedup_construction_validation (bk : Backend) (cfg : Config)
    (docs : List Doc) :
    ((∃ e, fuzzyInit bk cfg = .error e) ↔
      (cfgGetQ cfg "threshold" (4/5) < 0 ∨ 1 < cfgGetQ cfg "threshold" (4/5) ∨
        cfgGetZ cfg "num_perm" 128 ≤ 0)) ∧
    ((cfgGetQ cfg "similarity_threshold" (17/20) < 0 ∨
        1 < cfgGetQ cfg "similarity_threshold" (17/20) ∨
        cfgGetZ cfg "num_perm" 128 ≤ 0) →
      ∃ e, SoftDeduplicator.deduplicate bk (softInit cfg) docs = .error e) ∧
    (¬(cfgGetQ cfg "similarity_threshold" (17/20) < 0 ∨
        1 < cfgGetQ cfg "similarity_threshold" (17/20) ∨
        cfgGetZ cfg "num_perm" 128 ≤ 0) →
      ∃ r, SoftDeduplicator.deduplicate bk (softInit cfg) docs = .ok r) := by
  refine ⟨?_, ?_, ?_⟩
  · constructor
    · rintro ⟨e, he⟩
      by_contra hc
      have hok := mkLSH_ok_of_valid (α := String) bk
        (cfgGetQ cfg "threshold" (4/5)) (cfgGetZ cfg "num_perm" 128) hc
      simp only [fuzzyInit] at he
      rw [hok] at he
      exact Except.noConfusion he
    · intro hcond
      obtain ⟨e, he⟩ := (mkLSH_error_iff (α := String) bk
        (cfgGetQ cfg "threshold" (4/5)) (cfgGetZ cfg "num_perm" 128)).mpr hcond
      refine ⟨e, ?_⟩
      simp only [fuzzyInit]
      rw [he]
  · intro hcond
    obtain ⟨e, he⟩ := (mkLSH_error_iff (α := ℕ) bk
      (cfgGetQ cfg "similarity_threshold" (17/20))
      (cfgGetZ cfg "num_perm" 128)).mpr hcond
    refine ⟨e, ?_⟩
    simp only [SoftDeduplicator.deduplicate, softInit]
    rw [he]
  · intro hvalid
    have hok := mkLSH_ok_of_valid (α := ℕ) bk
      (cfgGetQ cfg "similarity_threshold" (17/20)) (cfgGetZ cfg "num_perm" 128) hvalid
    simp only [SoftDeduplicator.deduplicate, softInit]
    rw [hok]
    exact ⟨_, rfl⟩

/-! ## State accumulation across calls (C6) -/

lemma exactAux_append (h : String → String) :
    ∀ (xs ys : List Doc) (seen : List String),
      exactAux h seen (xs ++ ys) =
        ((exactAux h seen xs).1 ++ (exactAux h (exactAux h seen xs).2 ys).1,
         (exactAux h (exactAux h seen xs).2 ys).2) := by
  intro xs
  induction xs with
  | nil => intro ys seen; simp [exactAux]
  | cons d xs ih =>
    intro ys seen
    by_cases hd : d.text = ""
    · simp only [List.cons_append, exactAux, if_pos hd]
      exact ih ys seen
    · by_cases hs : h d.text ∈ seen
      · simp only [List.cons_append, exactAux, if_neg hd, if_pos hs]
        exact ih ys seen
      · simp only [List.cons_append, exactAux, if_neg hd, if_neg hs]
        rw [show xs.append ys = xs ++ ys from rfl, ih ys (h d.text :: seen)]

/-- The enumeration offset does not influence which documents Fuzzy dedup
keeps — only the stored signatures do. -/
lemma fuzzyAux_index_irrel (bk : Backend) (st : FuzzyState) (i j : Nat)
    (docs : List Doc) :
    (fuzzyAux bk st i docs).1 = (fuzzyAux bk st j docs).1 := by
  have h1 := fuzzyAux_matches_specGo bk docs st
    ⟨st.lsh.b, st.lsh.r, st.lsh.entries.map (fun e => (0, e.2))⟩ i 0 rfl rfl
    (by simp)
  have h2 := fuzzyAux_matches_specGo bk docs st
    ⟨st.lsh.b, st.lsh.r, st.lsh.entries.map (fun e => (0, e.2))⟩ j 0 rfl rfl
    (by simp)
  rw [h1.1, h2.1]

/-- C6: the deduplicators' mutable state accumulates across calls within
one instance's lifetime: splitting an Exact pass over two calls produces
exactly the one-call output and final seen set; a second Fuzzy call
continues against the index accumulated by the first, the two-call kept
output equalling the one-call output; and a second Soft call on the
state a successful first call returned succeeds. -/
theorem dedup_state_accumulates (bk : Backend) (h : String → String)
    (st_e : ExactState) (st_f : FuzzyState) (st_s : SoftState)
    (xs ys : List Doc) (r1 : List Doc × SoftState)
    (hs : SoftDeduplicator.deduplicate bk st_s xs = .ok r1) :
    (ExactDeduplicator.deduplicate h st_e (xs ++ ys)).1 =
      (ExactDeduplicator.deduplicate h st_e xs).1 ++
        (ExactDeduplicator.deduplicate h
          (ExactDeduplicator.deduplicate h st_e xs).2 ys).1 ∧
    (ExactDeduplicator.deduplicate h st_e (xs ++ ys)).2 =
      (ExactDeduplicator.deduplicate h
        (ExactDeduplicator.deduplicate h st_e xs).2 ys).2 ∧
    (FuzzyDeduplicator.deduplicate bk st_f (xs ++ ys)).1 =
      (FuzzyDeduplicator.deduplicate bk st_f xs).1 ++
        (FuzzyDeduplicator.deduplicate bk
          (FuzzyDeduplicator.deduplicate bk st_f xs).2 ys).1 ∧
    ∃ r2, SoftDeduplicator.deduplicate bk r1.2 ys = .ok r2 := by
  refine ⟨?_, ?_, ?_, ?_⟩
  · show (exactAux h st_e.seen_hashes (xs ++ ys)).1 = _
    rw [exactAux_append h xs ys st_e.seen_hashes]
    rfl
  · show ({ st_e with
      seen_hashes := (exactAux h st_e.seen_hashes (xs ++ ys)).2 } : ExactState) = _
    rw [exactAux_append h xs ys st_e.seen_hashes]
    rfl
  · show (fuzzyAux bk st_f 0 (xs ++ ys)).1 = _
    rw [fuzzyAux_append bk xs ys st_f 0]
    exact congrArg ((fuzzyAux bk st_f 0 xs).1 ++ ·)
      (fuzzyAux_index_irrel bk (fuzzyAux bk st_f 0 xs).2 (0 + xs.length) 0 ys)
  · simp only [SoftDeduplicator.deduplicate] at hs
    cases hmk : mkLSH (α := ℕ) bk st_s.similarity_threshold st_s.num_perm with
    | error e =>
      rw [hmk] at hs
      exact Except.noConfusion hs
    | ok lsh0 =>
      rw [hmk] at hs
      simp only [Except.ok.injEq] at hs
      have hthr : r1.2.similarity_threshold = st_s.similarity_threshold := by
        rw [← hs]
      have hnp : r1.2.num_perm = st_s.num_perm := by
        rw [← hs]
      simp only [SoftDeduplicator.deduplicate]
      rw [hthr, hnp, hmk]
      exact ⟨_, rfl⟩

/-- Witness for C6 with concrete fresh instances and empty calls. -/
theorem dedup_c6_witness :
    (ExactDeduplicator.deduplicate (fun s : String => s) (exactInit []) ([] ++ [])).1 =
      (ExactDeduplicator.deduplicate (fun s : String => s) (exactInit []) []).1 ++
        (ExactDeduplicator.deduplicate (fun s : String => s)
          (ExactDeduplicator.deduplicate (fun s : String => s) (exactInit []) []).2 []).1 ∧
    (ExactDeduplicator.deduplicate (fun s : String => s) (exactInit []) ([] ++ [])).2 =
      (ExactDeduplicator.deduplicate (fun s : String => s)
        (ExactDeduplicator.deduplicate (fun s : String => s) (exactInit []) []).2 []).2 ∧
    (FuzzyDeduplicator.deduplicate demoBackend demoFuzzyFresh ([] ++ [])).1 =
      (FuzzyDeduplicator.deduplicate demoBackend demoFuzzyFresh []).1 ++
        (FuzzyDeduplicator.deduplicate demoBackend
          (FuzzyDeduplicator.deduplicate demoBackend demoFuzzyFresh []).2 []).1 ∧
    ∃ r2, SoftDeduplicator.deduplicate demoBackend
      (([], softInit []) : List Doc × SoftState).2 [] = .ok r2 :=
  dedup_state_accumulates demoBackend (fun s : String => s) (exactInit [])
    demoFuzzyFresh (softInit []) [] [] ([], softInit [])
    (by norm_num [SoftDeduplicator.deduplicate, mkLSH, softInit, cfgGetQ, cfgGetZ,
      collectMinhashes, clusterDocs, assignWeights])
